import Mathlib

/-!
Shallow embedding of the spatial query and classification engine of
`src/2025/project_c/app.js` (flood-zone map application), together with
proofs checking the natural-language specification against it.

Modelling conventions:
* JavaScript numbers are modelled as rationals (`ℚ`); every `ℚ` is finite,
  so `Number.isFinite` guards are identically true in the model and the
  non-finite branches are unreachable.
* GeoJSON positions are modelled as longitude/latitude pairs `ℚ × ℚ`
  (the spec's data model: "each coordinate is a (longitude, latitude)
  pair"); `coords.slice(0, 2)` is the identity on such pairs.
* Absent / non-numeric attribute values are modelled as `none : Option ℚ`,
  so `Number(x) || 0` becomes `Option.getD · 0`.
* The floating-point transcendental functions used by `haversine`
  (`Math.sin`, `Math.cos`, `Math.atan2`, `Math.sqrt`, `Math.PI`) are kept
  abstract as a record of function parameters (`TrigOps`), preserving the
  exact algebraic structure of the source formula.
-/

namespace FloodApp

/-- A longitude/latitude position. -/
abbrev Pt : Type := ℚ × ℚ

/-- 2D cross product (z-component), used for orientation tests in proofs. -/
def cross (u v : Pt) : ℚ := u.1 * v.2 - u.2 * v.1

/-- GeoJSON geometry, an explicit tagged union over the geometry kinds
handled by `app.js`; `other` stands for any unrecognized or missing
`type` tag (every `switch` in the source has a `default` branch for it). -/
inductive Geometry : Type
  | point (c : Pt)
  | multiPoint (cs : List Pt)
  | lineString (cs : List Pt)
  | multiLineString (ls : List (List Pt))
  | polygon (rings : List (List Pt))
  | multiPolygon (polys : List (List (List Pt)))
  | other
deriving DecidableEq, Repr

/-- Bounding box `[minLon, minLat, maxLon, maxLat]` (`geometryBounds`
returns such a 4-array). -/
structure BBox : Type where
  minLon : ℚ
  minLat : ℚ
  maxLon : ℚ
  maxLat : ℚ
deriving DecidableEq, Repr

/-! ### `pointInRing` / `pointInPolygon` (app.js lines 2336-2372) -/

/-- One iteration of the `pointInRing` loop: the ray-crossing test for the
edge from `prev = ring[j]` to `cur = ring[i]` (source indices `j`, `i`):
`yi > y !== yj > y && x < ((xj - xi) * (y - yi)) / (yj - yi) + xi`. -/
def rayIntersects (p : Pt) (prev cur : Pt) : Bool :=
  (decide (cur.2 > p.2) != decide (prev.2 > p.2)) &&
    decide (p.1 < (prev.1 - cur.1) * (p.2 - cur.2) / (prev.2 - cur.2) + cur.1)

/-- The list of edges `(ring[j], ring[i])` traversed by the `pointInRing`
loop: `j` starts at `ring.length - 1` and then trails `i` by one. -/
def ringEdges (ring : List Pt) : List (Pt × Pt) :=
  (ring.getLastD (0, 0) :: ring.dropLast).zip ring

/-- `pointInRing(point, ring)`: ray-casting parity test (app.js 2336-2349). -/
def pointInRing (p : Pt) (ring : List Pt) : Bool :=
  (ringEdges ring).foldl
    (fun inside e => if rayIntersects p e.1 e.2 then !inside else inside) false

/-- `pointInPolygon(point, feature)` restricted to the geometry argument
(app.js 2351-2372).  A `Polygon`/`MultiPolygon` whose ring list is empty
is malformed GeoJSON (the source would fault indexing `rings[0]`); the
model returns `false` there, and no claim quantifies over such data. -/
def pointInPolygonGeom (p : Pt) (g : Geometry) : Bool :=
  match g with
  | .polygon [] => false
  | .polygon (outer :: holes) =>
      if !pointInRing p outer then false
      else if holes.any (fun h => pointInRing p h) then false
      else true
  | .multiPolygon polys =>
      polys.any fun rings =>
        match rings with
        | [] => false
        | outer :: holes =>
            pointInRing p outer && !(holes.any fun h => pointInRing p h)
  | _ => false

/-! ### `geometryBounds` / `pointWithinBounds` (app.js 131-175, 886-894) -/

/-- All coordinate pairs of a geometry in the depth-first order the
`walk`/`update` recursion of `geometryBounds` visits them. -/
def coordsOf : Geometry → List Pt
  | .point c => [c]
  | .multiPoint cs => cs
  | .lineString cs => cs
  | .multiLineString ls => ls.flatten
  | .polygon rings => rings.flatten
  | .multiPolygon polys => (polys.map List.flatten).flatten
  | .other => []

/-- Componentwise min/max accumulation over a coordinate list.  The source
starts from `±Infinity` and returns `null` when no finite coordinate was
seen; over `ℚ` (no infinities) this is the fold from the first element,
with `none` for the empty list. -/
def bboxUpd (bb : BBox) (q : Pt) : BBox :=
  ⟨min bb.minLon q.1, min bb.minLat q.2, max bb.maxLon q.1, max bb.maxLat q.2⟩

def boundsOfCoords : List Pt → Option BBox
  | [] => none
  | c :: rest => some <| rest.foldl bboxUpd ⟨c.1, c.2, c.1, c.2⟩

/-- `geometryBounds(geometry)` (app.js 131-175): componentwise min/max over
every coordinate, `none` for unsupported types or no coordinates. -/
def geometryBounds (g : Geometry) : Option BBox :=
  match g with
  | .other => none
  | g => boundsOfCoords (coordsOf g)

/-- `pointWithinBounds(point, bounds)` (app.js 886-894). -/
def pointWithinBounds (p : Pt) (b : BBox) : Bool :=
  decide (p.1 ≥ b.minLon) && decide (p.1 ≤ b.maxLon) &&
    decide (p.2 ≥ b.minLat) && decide (p.2 ≤ b.maxLat)

/-! ### Zone classification (`findFloodZone`, app.js 1753-1771) -/

/-- A zone-layer feature as stored in `zoneFeatureMap`: its (normalized)
geometry and the `__bounds` derived field attached at load time
(app.js 1470-1476; `geometryBounds` may return `null`). -/
structure ZoneFeature : Type where
  geometry : Geometry
  bounds : Option BBox
deriving DecidableEq, Repr

/-- `zonePriority` (app.js 1006): fixed priority order of the zone layers. -/
def zonePriority : List String := ["VE", "AE", "AO", "A", "X"]

/-- The per-feature test performed inside the `findFloodZone` loop body
(app.js 1756-1767): skip when a bounding box is attached and the point is
outside it, otherwise run `pointInPolygon`.  This is the spec's
`PointLocator.contains` (bounding-box pre-filter + exact test). -/
def zoneContains (p : Pt) (f : ZoneFeature) : Bool :=
  match f.bounds with
  | some bb => if !pointWithinBounds p bb then false else pointInPolygonGeom p f.geometry
  | none => pointInPolygonGeom p f.geometry

/-- Result object of `findFloodZone` (the `description` field, a
translated UI string derived from `zoneId` alone, is presentation-layer
and omitted). -/
structure ZoneMatch : Type where
  zoneId : String
  feature : ZoneFeature
deriving DecidableEq, Repr

/-- The outer loop of `findFloodZone` over a priority list: for each zone
id, scan that layer's features in stored order and return the first
containing feature tagged with the layer id. -/
def findFloodZoneAux (snap : String → List ZoneFeature) (p : Pt) :
    List String → Option ZoneMatch
  | [] => none
  | z :: rest =>
      match (snap z).find? (zoneContains p) with
      | some f => some ⟨z, f⟩
      | none => findFloodZoneAux snap p rest

/-- `findFloodZone(point)` (app.js 1753-1771).  The mutable
`zoneFeatureMap` is passed explicitly as a snapshot `snap`
(`zoneFeatureMap.get(zoneId) || []` is total with default `[]`). -/
def findFloodZone (snap : String → List ZoneFeature) (p : Pt) : Option ZoneMatch :=
  findFloodZoneAux snap p zonePriority

/-! ### Risk valuation (`riskProfiles` app.js 1008-1015,
`renderInsuranceInfo` app.js 2138-2139) -/

/-- `riskProfiles`: the fixed `premiumRate` lookup table. -/
def riskProfiles : List (String × ℚ) :=
  [("VE", 18/1000), ("AE", 15/1000), ("AO", 12/1000),
   ("A", 12/1000), ("X", 6/1000), ("none", 4/1000)]

/-- `riskProfiles[zoneId] ?? riskProfiles.none` (app.js 2116). -/
def premiumRateFor (zoneId : String) : ℚ :=
  (riskProfiles.lookup zoneId).getD (4/1000)

/-- `estimatedPremium` (app.js 2138):
`Math.min(Math.max(propertyValue * profile.premiumRate, 450), 7200)`. -/
def estimatedPremium (zoneId : String) (propertyValue : ℚ) : ℚ :=
  min (max (propertyValue * premiumRateFor zoneId) 450) 7200

/-- `recommendedCoverage` (app.js 2139): `Math.min(propertyValue, 250000)`. -/
def recommendedCoverage (propertyValue : ℚ) : ℚ :=
  min propertyValue 250000

/-! ### Coordinate normalization (`createTransformer` app.js 35-45,
`transformGeometry` app.js 47-74, `normalizeFeatures` app.js 76-83) -/

/-- `createTransformer(fromCode)`.  `fromCode` is `parseCrs`'s output
(`none` models a falsy code).  The canonical branch returns
`coords => coords.slice(0, 2)`, the identity on lon/lat pairs; any other
code goes through the external `proj4` projection, kept abstract as the
function parameter `proj`. -/
def createTransformer (proj : String → Pt → Pt) (fromCode : Option String) :
    Pt → Pt :=
  if fromCode = none ∨ fromCode = some "EPSG:4326" ∨ fromCode = some "CRS:84" then
    fun coords => coords
  else
    fun coords => proj ((fromCode).getD "") coords

/-- `transformGeometry(geometry, transform)` for a non-null geometry:
applies `transform` to every position, per geometry type; unknown types
are returned unchanged (the `default` branch). -/
def transformGeometry (transform : Pt → Pt) : Geometry → Geometry
  | .point c => .point (transform c)
  | .multiPoint cs => .multiPoint (cs.map transform)
  | .lineString cs => .lineString (cs.map transform)
  | .multiLineString ls => .multiLineString (ls.map (fun ring => ring.map transform))
  | .polygon rings => .polygon (rings.map (fun ring => ring.map transform))
  | .multiPolygon polys =>
      .multiPolygon (polys.map (fun poly => poly.map (fun ring => ring.map transform)))
  | .other => .other

/-- `normalizeFeatures` restricted to the geometry of each feature
(`geometry: transformGeometry(feature.geometry, transformer)`); a null
geometry is returned unchanged (`if (!geometry) return geometry`). -/
def normalizeGeometries (proj : String → Pt → Pt) (fromCode : Option String)
    (features : List (Option Geometry)) : List (Option Geometry) :=
  features.map (Option.map (transformGeometry (createTransformer proj fromCode)))

/-! ### Nearest shelter (`haversine` app.js 2374-2384,
`findNearestShelter` app.js 1773-1814) -/

/-- The floating-point transcendental functions used by `haversine`,
kept abstract (they are calls into the JS `Math` library). -/
structure TrigOps : Type where
  sin : ℚ → ℚ
  cos : ℚ → ℚ
  sqrt : ℚ → ℚ
  atan2 : ℚ → ℚ → ℚ
  pi : ℚ

/-- `haversine(lon1, lat1, lon2, lat2)` (app.js 2374-2384): great-circle
distance with mean Earth radius `R = 6371` km, algebraic structure exactly
as in the source, trigonometric primitives abstracted by `T`. -/
def haversine (T : TrigOps) (lon1 lat1 lon2 lat2 : ℚ) : ℚ :=
  let R : ℚ := 6371
  let toRad : ℚ → ℚ := fun d => d * T.pi / 180
  let dLat := toRad (lat2 - lat1)
  let dLon := toRad (lon2 - lon1)
  let a := T.sin (dLat / 2) ^ 2 +
    T.cos (toRad lat1) * T.cos (toRad lat2) * T.sin (dLon / 2) ^ 2
  let c := 2 * T.atan2 (T.sqrt a) (T.sqrt (1 - a))
  R * c

/-- A shelter feature: display name (`properties.Name || ""`) and its
Point geometry's coordinates. -/
structure Shelter : Type where
  name : String
  coords : Pt
deriving DecidableEq, Repr

/-- `s.includes(t)` on character lists (JS `String.prototype.includes`). -/
def charListIncludes (s t : List Char) : Bool :=
  match s with
  | [] => t.isEmpty
  | _ :: rest => t.isPrefixOf s || charListIncludes rest t

/-- JS `String.prototype.toUpperCase` on the ASCII alphabet (the only
characters the source's two literals use). -/
def jsToUpper (s : List Char) : List Char := s.map Char.toUpper

/-- Whitespace for JS `String.prototype.trim`. -/
def isJsSpace (c : Char) : Bool :=
  c = ' ' ∨ c = '\t' ∨ c = '\n' ∨ c = '\r'

/-- JS `String.prototype.trim`: strip leading and trailing whitespace. -/
def jsTrim (s : List Char) : List Char :=
  ((s.dropWhile isJsSpace).reverse.dropWhile isJsSpace).reverse

/-- `legalDescription` test (app.js 1776-1779): the parcel's `Tax_Legal_`
attribute is a string whose upper-casing contains `"WATER ISLAND"`
(`WATER_ISLAND_TOKEN`, app.js 883). -/
def isWaterIslandParcel (legalDescription : Option String) : Bool :=
  match legalDescription with
  | none => false
  | some s => charListIncludes (jsToUpper s.toList) "WATER ISLAND".toList

/-- Shelter-name test (app.js 1784-1785):
`(feature.properties?.Name || "").trim().toUpperCase() ===
"Water Island Station".toUpperCase()` (`WATER_ISLAND_SHELTER_NAME`). -/
def isWaterIslandShelter (f : Shelter) : Bool :=
  jsToUpper (jsTrim f.name.toList) == jsToUpper "Water Island Station".toList

/-- `if (!closest || distanceKm < closest.distanceKm) closest = {feature, distanceKm}`. -/
def updateClosest (dist : Shelter → ℚ) (closest : Option (Shelter × ℚ))
    (f : Shelter) : Option (Shelter × ℚ) :=
  let distanceKm := dist f
  match closest with
  | none => some (f, distanceKm)
  | some c => if distanceKm < c.2 then some (f, distanceKm) else some c

/-- Body of the `findNearestShelter` scan loop (app.js 1783-1797), acting
on the state `(waterIslandShelter, closest)`. -/
def shelterScanStep (isWI : Bool) (dist : Shelter → ℚ)
    (st : Option Shelter × Option (Shelter × ℚ)) (f : Shelter) :
    Option Shelter × Option (Shelter × ℚ) :=
  let (wis, closest) := st
  if isWaterIslandShelter f then
    if !isWI then (some f, closest)  -- `continue`: excluded from the scan
    else (some f, updateClosest dist closest f)
  else (wis, updateClosest dist closest f)

/-- `findNearestShelter(point, parcelFeature)` (app.js 1773-1814), with the
`dataStore.shelterFeatures` snapshot and the trig primitives explicit.
The trailing branches 1804-1811 of the source are translated literally:
1804-1807 is unreachable (its condition implies the 1799 return already
fired) and 1809-1811 returns `null` when `closest` is already `null`. -/
def findNearestShelter (T : TrigOps) (shelters : List Shelter) (p : Pt)
    (legalDescription : Option String) : Option (Shelter × ℚ) :=
  if shelters.isEmpty then none
  else
    let isWI := isWaterIslandParcel legalDescription
    let dist : Shelter → ℚ := fun f => haversine T p.1 p.2 f.coords.1 f.coords.2
    let st := shelters.foldl (shelterScanStep isWI dist) (none, none)
    let wis := st.1
    let closest := st.2
    match isWI, wis with
    | true, some w => some (w, dist w)          -- app.js 1799-1802
    | _, _ =>
      match closest, wis, isWI with
      | none, some _, false => none             -- app.js 1809-1811
      | _, _, _ => closest                      -- app.js 1813

/-! ### Parcel lookup (`findParcelAtPoint`, app.js 1816-1837) -/

/-- A parcel feature as stored in `dataStore.parcelCollection`: geometry
plus the `__bounds` / `__centroid` derived fields. -/
structure ParcelRecord : Type where
  geometry : Geometry
  bounds : Option BBox
  centroid : Option Pt
deriving DecidableEq, Repr

/-- The per-feature test of the `findParcelAtPoint` loop (same bounding-box
gate + `pointInPolygon` as the zone loop). -/
def parcelContains (p : Pt) (f : ParcelRecord) : Bool :=
  match f.bounds with
  | some bb => if !pointWithinBounds p bb then false else pointInPolygonGeom p f.geometry
  | none => pointInPolygonGeom p f.geometry

/-- `findParcelAtPoint(point)` (app.js 1816-1837). -/
def findParcelAtPoint (T : TrigOps) (parcels : List ParcelRecord) (p : Pt) :
    Option (ParcelRecord × ℚ) :=
  match parcels.find? (parcelContains p) with
  | none => none
  | some f =>
      some (f,
        match f.centroid with
        | some c => haversine T p.1 p.2 c.1 c.2
        | none => 0)

/-! ### Percentile ranker (`createPercentileRanker`, app.js 907-951)

The two `while` loops (binary search and the equal-run scans) are modelled
as structurally recursive functions on an explicit fuel argument; the fuel
passed at the call sites (`sorted.length + 1`, resp. `sorted.length`)
provably exceeds the number of iterations the source loops perform, so the
fuel-exhaustion branches are unreachable. -/

/-- The binary-search loop of the ranker (app.js 923-932):
`while (low <= high) { mid = floor((low+high)/2); if (sorted[mid] < value)
low = mid+1 else high = mid-1 }`, returning the final `low`.  Inside the
loop `0 ≤ low ≤ high`, so JS `Math.floor` agrees with `Int` division. -/
def lowerBoundLoop (s : List ℚ) (value : ℚ) : ℕ → ℤ → ℤ → ℤ
  | 0, low, _ => low
  | fuel + 1, low, high =>
      if low ≤ high then
        let mid : ℤ := (low + high) / 2
        if s.getD mid.toNat 0 < value then lowerBoundLoop s value fuel (mid + 1) high
        else lowerBoundLoop s value fuel low (mid - 1)
      else low

/-- The backward scan (app.js 934-936):
`while (firstIndex > 0 && sorted[firstIndex-1] === value) firstIndex -= 1`. -/
def scanBackLoop (s : List ℚ) (value : ℚ) : ℕ → ℕ → ℕ
  | 0, i => i
  | fuel + 1, i =>
      if 0 < i ∧ s.getD (i - 1) 0 = value then scanBackLoop s value fuel (i - 1)
      else i

/-- The forward scan (app.js 937-940):
`while (lastEqual + 1 < sorted.length && sorted[lastEqual+1] === value)
lastEqual += 1`. -/
def scanFwdLoop (s : List ℚ) (value : ℚ) : ℕ → ℕ → ℕ
  | 0, i => i
  | fuel + 1, i =>
      if i + 1 < s.length ∧ s.getD (i + 1) 0 = value then scanFwdLoop s value fuel (i + 1)
      else i

/-- The ranker returned by `createPercentileRanker` in the general case
(at least two distinct values), evaluated on a query (app.js 918-950). -/
def rankGeneral (sorted : List ℚ) (value : ℚ) : ℚ :=
  if value ≤ sorted.getD 0 0 then 0
  else
    let lastIndex := sorted.length - 1
    if value ≥ sorted.getD lastIndex 0 then 1
    else
      let low := lowerBoundLoop sorted value (sorted.length + 1) 0 (lastIndex : ℤ)
      let firstIndex0 := (max 0 low).toNat
      let firstIndex := scanBackLoop sorted value sorted.length firstIndex0
      let lastEqual := scanFwdLoop sorted value sorted.length firstIndex
      if sorted.getD firstIndex 0 = value then
        ((firstIndex : ℚ) + (lastEqual : ℚ)) / 2 / (lastIndex : ℚ)
      else
        let prevValue := sorted.getD (firstIndex - 1) 0
        let nextValue := sorted.getD firstIndex 0
        let span := if nextValue - prevValue = 0 then 1 else nextValue - prevValue
        (((firstIndex : ℚ) - 1) + (value - prevValue) / span) / (lastIndex : ℚ)

/-- `createPercentileRanker(values)` (app.js 907-951).  Over `ℚ` every
value is finite, so the `Number.isFinite` filter keeps everything and the
`null` returns for non-finite queries are unreachable; the ranker
therefore returns `some` on every query. -/
def createPercentileRanker (values : List ℚ) : ℚ → Option ℚ :=
  let sorted := values.mergeSort (fun a b => decide (a ≤ b))
  if sorted.length = 0 then fun _ => none
  else if sorted.length = 1 then fun _ => some (1/2)
  else if sorted.getD 0 0 = sorted.getD (sorted.length - 1) 0 then fun _ => some (1/2)
  else fun value => some (rankGeneral sorted value)

/-! ### Quantile breaks (`loadParcelValues`, app.js 1652-1670) -/

/-- The quantile fractions used for the 5-class choropleth (app.js 1662). -/
def quantileFractions : List ℚ := [2/10, 4/10, 6/10, 8/10]

/-- The quantile-break computation (app.js 1658-1670): sort ascending, then
for each fraction select the value at
`Math.min(values.length - 1, Math.floor(q * (values.length - 1)))`;
`[]` when the distribution is empty. -/
def quantileBreaks (values : List ℚ) : List ℚ :=
  let sorted := values.mergeSort (fun a b => decide (a ≤ b))
  if sorted.length = 0 then []
  else
    quantileFractions.map fun q =>
      sorted.getD (min (sorted.length - 1) (Int.toNat ⌊q * ((sorted.length : ℚ) - 1)⌋)) 0

/-! ### Parcel metric distributions (`loadParcelValues`, app.js 1582-1625) -/

/-- `ACRE_IN_SQ_METERS` (app.js 874). -/
def ACRE_IN_SQ_METERS : ℚ := 40468564224 / 10000000000

/-- Raw attributes of one parcel feature relevant to the metric
distributions: `none` models an absent or non-numeric attribute
(`Number(x)` is `NaN` there, so `Number(x) || 0` is `0`). -/
structure RawParcel : Type where
  geometry : Option Geometry
  landValue : Option ℚ
  improvedV : Option ℚ
  shapeArea : Option ℚ
deriving DecidableEq, Repr

/-- The metric triple `(totalValue, improvementValue, valuePerAcre)` a
parcel contributes to `metricDistributions`, or `none` when the feature is
dropped (`if (!feature.geometry) return null`, app.js 1597). -/
def parcelMetrics (f : RawParcel) : Option (ℚ × ℚ × ℚ) :=
  let landValue := f.landValue.getD 0
  let improvementValue := f.improvedV.getD 0
  let totalValue := landValue + improvementValue
  match f.geometry with
  | none => none
  | some _ =>
      let areaSqMeters := f.shapeArea.getD 0
      let acres := if areaSqMeters > 0 then areaSqMeters / ACRE_IN_SQ_METERS else 0
      let valuePerAcre := if acres > 0 then totalValue / acres else 0
      some (totalValue, improvementValue, valuePerAcre)

/-- The `metricDistributions` arrays (`totalValue`, `improvementValue`,
`valuePerAcre`) built by the `.map(...)` pass of `loadParcelValues`
(app.js 1576-1625): one push per feature that has a geometry. -/
def parcelDistributions (parcels : List RawParcel) : List ℚ × List ℚ × List ℚ :=
  let rows := parcels.filterMap parcelMetrics
  (rows.map (fun r => r.1), rows.map (fun r => r.2.1), rows.map (fun r => r.2.2))

/-- `true` exactly on the two geometry kinds `pointInPolygon` tests for. -/
def isPolygonal : Geometry → Bool
  | .polygon _ => true
  | .multiPolygon _ => true
  | _ => false

/-! ### Analysis vocabulary for the ray-casting test (proof-side only) -/

/-- The edge `(prev, cur)` crosses the horizontal line through height `y`
going up: `prev` at or below, `cur` strictly above (the `>`-based
convention of `pointInRing`). -/
def straddlesUp (y : ℚ) (e : Pt × Pt) : Bool :=
  !(decide (e.1.2 > y)) && decide (e.2.2 > y)

/-- The edge `(prev, cur)` crosses the horizontal line through `y` going
down. -/
def straddlesDown (y : ℚ) (e : Pt × Pt) : Bool :=
  decide (e.1.2 > y) && !(decide (e.2.2 > y))

/-- The first conjunct of the ray test: the edge straddles the horizontal
line through `p`. -/
def straddles (y : ℚ) (e : Pt × Pt) : Bool :=
  decide (e.2.2 > y) != decide (e.1.2 > y)

/-- The x-coordinate at which the edge `(prev, cur)` meets the horizontal
line through height `y` (the expression inside `pointInRing`'s
comparison). -/
def xCross (y : ℚ) (e : Pt × Pt) : ℚ :=
  (e.1.1 - e.2.1) * (y - e.2.2) / (e.1.2 - e.2.2) + e.2.1

/-- A coordinate pair lies inside a bounding box (proposition form of
`pointWithinBounds`). -/
def inBox (c : Pt) (bb : BBox) : Prop :=
  bb.minLon ≤ c.1 ∧ c.1 ≤ bb.maxLon ∧ bb.minLat ≤ c.2 ∧ c.2 ≤ bb.maxLat

/-! ### Convex-polygon vocabulary (for the C2 inside/outside claims) -/

/-- Counter-clockwise orientation of an ordered point triple. -/
def ccw (A B C : Pt) : Prop := 0 < cross (B - A) (C - A)

/-- Strict cyclic order of three indices around `ZMod n`. -/
def cyc {n : ℕ} (i j k : ZMod n) : Prop :=
  (i.val < j.val ∧ j.val < k.val) ∨ (j.val < k.val ∧ k.val < i.val) ∨
    (k.val < i.val ∧ i.val < j.val)

/-- The vertex list of an indexed closed ring (index `m` ↦ vertex `v m`),
as fed to `pointInRing`; the GeoJSON closing duplicate vertex is not
required (`pointInRing` wraps around by itself). -/
def ringOfFn (n : ℕ) (v : ZMod n → Pt) : List Pt :=
  (List.range n).map (fun (m : ℕ) => v (m : ZMod n))

/-- Strictly convex position, counter-clockwise: every cyclically ordered
vertex triple turns left. -/
def ConvexCCW (n : ℕ) (v : ZMod n → Pt) : Prop :=
  ∀ i j k : ZMod n, cyc i j k → ccw (v i) (v j) (v k)

/-- The point is strictly inside the convex polygon: strictly left of
every directed edge `v (k-1) → v k`. -/
def StrictlyLeftAll (n : ℕ) (v : ZMod n → Pt) (p : Pt) : Prop :=
  ∀ k : ZMod n, 0 < cross (v k - v (k - 1)) (p - v (k - 1))

/-- The point is strictly outside the convex polygon: strictly right of
some edge. -/
def StrictlyRightSome (n : ℕ) (v : ZMod n → Pt) (p : Pt) : Prop :=
  ∃ k : ZMod n, cross (v k - v (k - 1)) (p - v (k - 1)) < 0

/-- A concrete convex quadrilateral (the unit square, counter-clockwise),
used to instantiate the convex-polygon results. -/
def sqVerts : ZMod 4 → Pt := fun i =>
  if i = 0 then (0, 0) else if i = 1 then (1, 0) else if i = 2 then (1, 1)
  else (0, 1)

/-! ## Theorems -/

section Theorems

/-- **C5.** For every zone id in {VE, AE, AO, A, X, none} and every positive
totalValue, the premium estimate is `clamp(totalValue × rate, 450, 7200)`
with rates VE 0.018, AE 0.015, AO 0.012, A 0.012, X 0.006, none 0.004, and
the recommended coverage is `min(totalValue, 250000)`; in particular zone
AE with totalValue 1,000,000 yields premium 7200 and coverage 250,000. -/
theorem claim_C5 :
    (∀ v : ℚ, 0 < v →
      estimatedPremium "VE" v = min (max (v * (18/1000)) 450) 7200 ∧
      estimatedPremium "AE" v = min (max (v * (15/1000)) 450) 7200 ∧
      estimatedPremium "AO" v = min (max (v * (12/1000)) 450) 7200 ∧
      estimatedPremium "A" v = min (max (v * (12/1000)) 450) 7200 ∧
      estimatedPremium "X" v = min (max (v * (6/1000)) 450) 7200 ∧
      estimatedPremium "none" v = min (max (v * (4/1000)) 450) 7200 ∧
      recommendedCoverage v = min v 250000 ∧
      (∀ z : String, 450 ≤ estimatedPremium z v ∧ estimatedPremium z v ≤ 7200)) ∧
    estimatedPremium "AE" 1000000 = 7200 ∧
    recommendedCoverage 1000000 = 250000 := by
  have hr : premiumRateFor "AE" = 15/1000 := rfl
  refine ⟨fun v _ => ⟨rfl, rfl, rfl, rfl, rfl, rfl, rfl, fun z => ?_⟩, by norm_num [estimatedPremium, hr], by norm_num [recommendedCoverage]⟩
  constructor
  · exact le_min (le_max_right _ _) (by norm_num)
  · exact min_le_right _ _

/-- Witness for C5 at totalValue 500000 (hypothesis `0 < 500000`). -/
theorem claim_C5_witness :
    estimatedPremium "VE" 500000 = min (max ((500000 : ℚ) * (18/1000)) 450) 7200 ∧
    recommendedCoverage 500000 = min 500000 250000 :=
  ⟨(claim_C5.1 500000 (by norm_num)).1,
   (claim_C5.1 500000 (by norm_num)).2.2.2.2.2.2.1⟩

/-- **C9, counterexample.** A parcel whose `Land_Value` and `Improved_V`
are absent/non-numeric is *not* excluded: its coerced `0` totalValue,
improvementValue and valuePerAcre all enter the metric distributions. The
claim says those distributions would be empty. -/
theorem claim_C9_counterexample :
    parcelDistributions [⟨some (.point (0, 0)), none, none, none⟩] =
      ([0], [0], [0]) ∧
    ([0] : List ℚ) ≠ [] := by
  refine ⟨?_, by simp⟩
  simp [parcelDistributions, parcelMetrics]

/-- **C9, amended.** Invalid (absent/non-numeric) `Land_Value` /
`Improved_V` attributes are coerced to `0` and the parcel's metrics are
included in the distributions as `0`-based values; only parcels without a
geometry are excluded.  Each distribution is exactly the map of the
corresponding coerced metric over the geometry-bearing parcels. -/
theorem claim_C9_amended (parcels : List RawParcel) :
    (parcelDistributions parcels).1 =
      (parcels.filter (fun f => f.geometry.isSome)).map
        (fun f => f.landValue.getD 0 + f.improvedV.getD 0) ∧
    (parcelDistributions parcels).2.1 =
      (parcels.filter (fun f => f.geometry.isSome)).map
        (fun f => f.improvedV.getD 0) := by
  induction parcels with
  | nil => exact ⟨rfl, rfl⟩
  | cons f rest ih =>
    obtain ⟨ih1, ih2⟩ := ih
    cases hg : f.geometry with
    | none =>
        simpa [parcelDistributions, parcelMetrics, hg, List.filter_cons] using ⟨ih1, ih2⟩
    | some g =>
        simpa [parcelDistributions, parcelMetrics, hg, List.filter_cons] using ⟨ih1, ih2⟩

/-- A geometry that is neither `Polygon` nor `MultiPolygon` always fails
the containment test (both `if` branches of `pointInPolygon` are skipped
and the function falls through to `return false`). -/
theorem pointInPolygonGeom_eq_false_of_not_polygonal (p : Pt) (g : Geometry)
    (h : isPolygonal g = false) : pointInPolygonGeom p g = false := by
  cases g <;> first | rfl | simp [isPolygonal] at h

theorem zoneContains_eq_false_of_not_polygonal (p : Pt) (f : ZoneFeature)
    (h : isPolygonal f.geometry = false) : zoneContains p f = false := by
  unfold zoneContains
  rw [pointInPolygonGeom_eq_false_of_not_polygonal p f.geometry h]
  cases f.bounds with
  | none => rfl
  | some bb => by_cases hw : pointWithinBounds p bb <;> simp [hw]

theorem findFloodZoneAux_eq_none (snap : String → List ZoneFeature) (p : Pt)
    (zs : List String)
    (h : ∀ z ∈ zs, ∀ f ∈ snap z, zoneContains p f = false) :
    findFloodZoneAux snap p zs = none := by
  induction zs with
  | nil => rfl
  | cons z rest ih =>
    have hz : (snap z).find? (zoneContains p) = none :=
      List.find?_eq_none.mpr fun f hf => by
        simp [h z (List.mem_cons_self z rest) f hf]
    simp only [findFloodZoneAux, hz]
    exact ih fun z' hz' f hf => h z' (List.mem_cons_of_mem _ hz') f hf

/-- **C10.** For every query point and every feature whose geometry type is
neither `Polygon` nor `MultiPolygon` (Point, MultiPoint, LineString,
MultiLineString, or a missing/unknown type), the containment test returns
`false`; consequently zone classification and parcel lookup over such
features can never produce a match. -/
theorem claim_C10 :
    (∀ p : Pt, ∀ g : Geometry, isPolygonal g = false →
        pointInPolygonGeom p g = false) ∧
    (∀ (p : Pt) (c : Pt), pointInPolygonGeom p (.point c) = false) ∧
    (∀ (p : Pt) (cs : List Pt), pointInPolygonGeom p (.multiPoint cs) = false) ∧
    (∀ (p : Pt) (cs : List Pt), pointInPolygonGeom p (.lineString cs) = false) ∧
    (∀ (p : Pt) (ls : List (List Pt)),
        pointInPolygonGeom p (.multiLineString ls) = false) ∧
    (∀ p : Pt, pointInPolygonGeom p .other = false) ∧
    (∀ (snap : String → List ZoneFeature) (p : Pt),
        (∀ z : String, ∀ f ∈ snap z, isPolygonal f.geometry = false) →
        findFloodZone snap p = none) ∧
    (∀ (T : TrigOps) (parcels : List ParcelRecord) (p : Pt),
        (∀ f ∈ parcels, isPolygonal f.geometry = false) →
        findParcelAtPoint T parcels p = none) := by
  refine ⟨pointInPolygonGeom_eq_false_of_not_polygonal,
    fun _ _ => rfl, fun _ _ => rfl, fun _ _ => rfl, fun _ _ => rfl, fun _ => rfl,
    fun snap p h => ?_, fun T parcels p h => ?_⟩
  · exact findFloodZoneAux_eq_none snap p zonePriority
      fun z _ f hf => zoneContains_eq_false_of_not_polygonal p f (h z f hf)
  · have hfind : parcels.find? (parcelContains p) = none := by
      refine List.find?_eq_none.mpr fun f hf => ?_
      have hpg := pointInPolygonGeom_eq_false_of_not_polygonal p f.geometry (h f hf)
      unfold parcelContains
      rw [hpg]
      cases f.bounds with
      | none => simp
      | some bb => by_cases hw : pointWithinBounds p bb <;> simp [hw]
    simp [findParcelAtPoint, hfind]

/-- Witness for C10's hypothesis-bearing conjuncts: a Point-geometry zone
snapshot and a LineString parcel produce no match. -/
theorem claim_C10_witness :
    findFloodZone (fun _ => [⟨.point (3, 4), none⟩]) (3, 4) = none ∧
    findParcelAtPoint ⟨id, id, id, (fun a _ => a), 3⟩
      [⟨.lineString [(0, 0), (1, 1)], none, none⟩] (0, 0) = none := by
  constructor
  · exact claim_C10.2.2.2.2.2.2.1 (fun _ => [⟨.point (3, 4), none⟩]) (3, 4)
      (fun z f hf => by
        have hf' : f = ⟨.point (3, 4), none⟩ := by simpa using hf
        subst hf'
        rfl)
  · exact claim_C10.2.2.2.2.2.2.2 ⟨id, id, id, (fun a _ => a), 3⟩ _ (0, 0)
      (fun f hf => by
        cases hf with
        | head => rfl
        | tail _ h => exact absurd h (List.not_mem_nil _))

/-- The canonical branch of `createTransformer` is the identity. -/
theorem transformGeometry_id (g : Geometry) :
    transformGeometry (fun c => c) g = g := by
  cases g <;> simp [transformGeometry, List.map_id']

/-- **C8.** When the declared reference system is absent or already the
canonical longitude/latitude system (`EPSG:4326` / `CRS:84`), the
coordinate normalizer passes every geometry through unchanged — exact
identity, no precision loss. -/
theorem claim_C8 (proj : String → Pt → Pt) (fromCode : Option String)
    (hc : fromCode = none ∨ fromCode = some "EPSG:4326" ∨ fromCode = some "CRS:84") :
    (∀ g : Geometry,
        transformGeometry (createTransformer proj fromCode) g = g) ∧
    (∀ features : List (Option Geometry),
        normalizeGeometries proj fromCode features = features) := by
  have ht : createTransformer proj fromCode = fun c => c := by
    unfold createTransformer
    rw [if_pos hc]
  constructor
  · intro g
    rw [ht]
    exact transformGeometry_id g
  · intro features
    unfold normalizeGeometries
    rw [ht]
    have : ∀ og : Option Geometry,
        Option.map (transformGeometry fun c => c) og = og := by
      intro og
      cases og with
      | none => rfl
      | some g => simp [transformGeometry_id]
    exact List.map_id'' this features

/-- Witness for C8: a point already in canonical coordinates passes
through unchanged, for each of the three canonical declarations. -/
theorem claim_C8_witness :
    transformGeometry (createTransformer (fun _ c => (c.1 + 1, c.2)) none)
      (.point (7, 8)) = .point (7, 8) ∧
    normalizeGeometries (fun _ c => (c.1 + 1, c.2)) (some "EPSG:4326")
      [some (.point (1, 2)), none] = [some (.point (1, 2)), none] ∧
    normalizeGeometries (fun _ c => (c.1 + 1, c.2)) (some "CRS:84")
      [some (.lineString [(1, 2), (3, 4)])] = [some (.lineString [(1, 2), (3, 4)])] :=
  ⟨(claim_C8 _ none (Or.inl rfl)).1 _,
   (claim_C8 _ (some "EPSG:4326") (Or.inr (Or.inl rfl))).2 _,
   (claim_C8 _ (some "CRS:84") (Or.inr (Or.inr rfl))).2 _⟩

/-- In a `≤`-sorted list, `getD` (default 0) is monotone in the index, for
in-range indices. -/
theorem sorted_getD_le (s : List ℚ) (hs : List.Sorted (· ≤ ·) s) {i j : ℕ}
    (hij : i ≤ j) (hj : j < s.length) : s.getD i 0 ≤ s.getD j 0 := by
  have hi : i < s.length := lt_of_le_of_lt hij hj
  rw [List.getD_eq_getElem s 0 hi, List.getD_eq_getElem s 0 hj]
  rcases lt_or_eq_of_le hij with h | h
  · exact List.pairwise_iff_getElem.mp hs i j hi hj h
  · subst h
    exact le_refl _

/-- The quantile index `⌊q·(n−1)⌋` stays below `n` for `0 ≤ q ≤ 1`, so the
`Math.min(values.length - 1, ...)` clamp in the source is a no-op. -/
theorem quantile_index_le (n : ℕ) (hn : 0 < n) (q : ℚ) (h1 : q ≤ 1) :
    (⌊q * ((n : ℚ) - 1)⌋).toNat ≤ n - 1 := by
  have hn1 : ((n - 1 : ℕ) : ℚ) = (n : ℚ) - 1 := by
    exact_mod_cast Nat.cast_sub hn
  have hnn : (0 : ℚ) ≤ (n : ℚ) - 1 := by
    rw [← hn1]
    positivity
  have hmul : q * ((n : ℚ) - 1) ≤ ((n - 1 : ℕ) : ℚ) := by
    rw [hn1]
    exact mul_le_of_le_one_left hnn h1
  have hfl : ⌊q * ((n : ℚ) - 1)⌋ ≤ ((n - 1 : ℕ) : ℤ) := by
    have := Int.floor_le_floor hmul
    rwa [Int.floor_natCast] at this
  calc (⌊q * ((n : ℚ) - 1)⌋).toNat ≤ ((n - 1 : ℕ) : ℤ).toNat := Int.toNat_le_toNat hfl
    _ = n - 1 := Int.toNat_natCast _

/-- **C7.** For every non-empty distribution and classCount 5, the
quantile-break computation sorts ascending and selects, for each fraction
in {0.2, 0.4, 0.6, 0.8}, the element at index `⌊q·(n−1)⌋` (the source's
`Math.min` clamp never binds); the result is exactly 4 thresholds,
monotonically non-decreasing, each an element of the source distribution. -/
theorem claim_C7 (values : List ℚ) (hne : values ≠ []) :
    (quantileBreaks values).length = 4 ∧
    List.Sorted (· ≤ ·) (quantileBreaks values) ∧
    (∀ b ∈ quantileBreaks values, b ∈ values) ∧
    quantileBreaks values =
      quantileFractions.map (fun q =>
        (values.mergeSort (fun a b => decide (a ≤ b))).getD
          (Int.toNat ⌊q * ((values.length : ℚ) - 1)⌋) 0) := by
  have hpos : 0 < values.length := List.length_pos.mpr hne
  have hlen : (values.mergeSort (fun a b => decide (a ≤ b))).length = values.length :=
    List.length_mergeSort values
  have hslen : 0 < (values.mergeSort (fun a b => decide (a ≤ b))).length := by
    rw [hlen]; exact hpos
  have hsorted : List.Sorted (· ≤ ·) (values.mergeSort (fun a b => decide (a ≤ b))) :=
    List.sorted_mergeSort' values
  set s := values.mergeSort (fun a b => decide (a ≤ b)) with hs
  have hqb : quantileBreaks values =
      quantileFractions.map (fun q =>
        s.getD (min (s.length - 1) (Int.toNat ⌊q * ((s.length : ℚ) - 1)⌋)) 0) := by
    rw [quantileBreaks]
    simp only [← hs, if_neg (Nat.pos_iff_ne_zero.mp hslen)]
  have hidx : ∀ q : ℚ, 0 ≤ q → q ≤ 1 →
      min (s.length - 1) (Int.toNat ⌊q * ((s.length : ℚ) - 1)⌋) =
        Int.toNat ⌊q * ((s.length : ℚ) - 1)⌋ :=
    fun q _ h1 => min_eq_right (quantile_index_le s.length hslen q h1)
  have hlt : ∀ q : ℚ, 0 ≤ q → q ≤ 1 →
      Int.toNat ⌊q * ((s.length : ℚ) - 1)⌋ < s.length := fun q _ h1 =>
    lt_of_le_of_lt (quantile_index_le s.length hslen q h1)
      (Nat.sub_lt hslen one_pos)
  have hmem : ∀ q : ℚ, 0 ≤ q → q ≤ 1 →
      s.getD (min (s.length - 1) (Int.toNat ⌊q * ((s.length : ℚ) - 1)⌋)) 0 ∈ values := by
    intro q h0 h1
    rw [hidx q h0 h1, List.getD_eq_getElem s 0 (hlt q h0 h1)]
    exact (List.mergeSort_perm values _).mem_iff.mp (List.getElem_mem _)
  have hmono : ∀ q q' : ℚ, 0 ≤ q → q ≤ q' → q' ≤ 1 →
      s.getD (min (s.length - 1) (Int.toNat ⌊q * ((s.length : ℚ) - 1)⌋)) 0 ≤
        s.getD (min (s.length - 1) (Int.toNat ⌊q' * ((s.length : ℚ) - 1)⌋)) 0 := by
    intro q q' h0 hqq h1
    have h0' : 0 ≤ q' := le_trans h0 hqq
    have h1q : q ≤ 1 := le_trans hqq h1
    rw [hidx q h0 h1q, hidx q' h0' h1]
    refine sorted_getD_le s hsorted ?_ (hlt q' h0' h1)
    refine Int.toNat_le_toNat (Int.floor_le_floor ?_)
    have hnn : (0 : ℚ) ≤ (s.length : ℚ) - 1 := by
      have : (1 : ℚ) ≤ (s.length : ℚ) := by exact_mod_cast hslen
      linarith
    exact mul_le_mul_of_nonneg_right hqq hnn
  refine ⟨?_, ?_, ?_, ?_⟩
  · rw [hqb]
    rfl
  · rw [hqb]
    simp only [quantileFractions, List.map]
    refine List.sorted_cons.mpr ⟨?_, List.sorted_cons.mpr ⟨?_, List.sorted_cons.mpr
      ⟨?_, List.sorted_cons.mpr ⟨?_, List.sorted_nil⟩⟩⟩⟩
    · intro b hb
      simp only [List.mem_cons, List.not_mem_nil, or_false] at hb
      rcases hb with rfl | rfl | rfl <;>
        exact hmono _ _ (by norm_num) (by norm_num) (by norm_num)
    · intro b hb
      simp only [List.mem_cons, List.not_mem_nil, or_false] at hb
      rcases hb with rfl | rfl <;>
        exact hmono _ _ (by norm_num) (by norm_num) (by norm_num)
    · intro b hb
      simp only [List.mem_cons, List.not_mem_nil, or_false] at hb
      rcases hb with rfl
      exact hmono _ _ (by norm_num) (by norm_num) (by norm_num)
    · intro b hb
      exact absurd hb (List.not_mem_nil _)
  · rw [hqb]
    intro b hb
    simp only [List.mem_map] at hb
    obtain ⟨q, hq, rfl⟩ := hb
    have h01 : 0 ≤ q ∧ q ≤ 1 := by
      simp only [quantileFractions, List.mem_cons, List.mem_singleton,
        List.not_mem_nil, or_false] at hq
      rcases hq with rfl | rfl | rfl | rfl <;> norm_num
    exact hmem q h01.1 h01.2
  · rw [hqb, ← hlen]
    refine List.map_congr_left fun q hq => ?_
    have h01 : 0 ≤ q ∧ q ≤ 1 := by
      simp only [quantileFractions, List.mem_cons, List.not_mem_nil, or_false] at hq
      rcases hq with rfl | rfl | rfl | rfl <;> norm_num
    exact congrArg (fun i => s.getD i 0) (hidx q h01.1 h01.2)

/-- Witness for C7 on the 10-value distribution
`[5,1,3,2,4,6,7,8,9,10]` (hypothesis: non-empty). -/
theorem claim_C7_witness :
    (quantileBreaks [5, 1, 3, 2, 4, 6, 7, 8, 9, 10]).length = 4 ∧
    List.Sorted (· ≤ ·) (quantileBreaks [5, 1, 3, 2, 4, 6, 7, 8, 9, 10]) ∧
    (∀ b ∈ quantileBreaks [5, 1, 3, 2, 4, 6, 7, 8, 9, 10],
      b ∈ ([5, 1, 3, 2, 4, 6, 7, 8, 9, 10] : List ℚ)) := by
  have h := claim_C7 [5, 1, 3, 2, 4, 6, 7, 8, 9, 10] (by simp)
  exact ⟨h.1, h.2.1, h.2.2.1⟩

/-- Structural characterization of `List.find?`: a hit splits the list at
the first satisfying element. -/
theorem find?_eq_some_append {α : Type} {p : α → Bool} {a : α} :
    ∀ {l : List α}, l.find? p = some a →
      ∃ pre post, l = pre ++ a :: post ∧ p a = true ∧ ∀ x ∈ pre, p x = false := by
  intro l
  induction l with
  | nil => intro h; cases h
  | cons x rest ih =>
    intro h
    by_cases hx : p x
    · rw [List.find?_cons_of_pos _ hx] at h
      cases h
      exact ⟨[], rest, rfl, hx, by simp⟩
    · rw [List.find?_cons_of_neg _ hx] at h
      obtain ⟨pre, post, hsplit, hpa, hpre⟩ := ih h
      refine ⟨x :: pre, post, by rw [hsplit]; rfl, hpa, ?_⟩
      intro y hy
      rcases List.mem_cons.mp hy with rfl | hy'
      · exact Bool.eq_false_iff.mpr hx
      · exact hpre y hy'

/-- Full behavioral characterization of the `findFloodZone` loop over an
arbitrary priority list. -/
theorem findFloodZoneAux_spec (snap : String → List ZoneFeature) (p : Pt)
    (zs : List String) :
    match findFloodZoneAux snap p zs with
    | none => ∀ z ∈ zs, ∀ f ∈ snap z, zoneContains p f = false
    | some m =>
        (∃ pre post, zs = pre ++ m.zoneId :: post ∧
          ∀ z ∈ pre, ∀ f ∈ snap z, zoneContains p f = false) ∧
        zoneContains p m.feature = true ∧
        ∃ fpre fpost, snap m.zoneId = fpre ++ m.feature :: fpost ∧
          ∀ f ∈ fpre, zoneContains p f = false := by
  induction zs with
  | nil => intro z hz; cases hz
  | cons z rest ih =>
    rw [findFloodZoneAux]
    cases hfind : (snap z).find? (zoneContains p) with
    | none =>
      simp only []
      cases haux : findFloodZoneAux snap p rest with
      | none =>
        rw [haux] at ih
        intro z' hz' f hf
        rcases List.mem_cons.mp hz' with rfl | hz''
        · have := List.find?_eq_none.mp hfind f hf
          exact Bool.eq_false_iff.mpr this
        · exact ih z' hz'' f hf
      | some m =>
        rw [haux] at ih
        obtain ⟨⟨pre, post, hsplit, hpre⟩, hcont, hfsplit⟩ := ih
        refine ⟨⟨z :: pre, post, by rw [hsplit]; rfl, ?_⟩, hcont, hfsplit⟩
        intro z' hz' f hf
        rcases List.mem_cons.mp hz' with rfl | hz''
        · exact Bool.eq_false_iff.mpr (List.find?_eq_none.mp hfind f hf)
        · exact hpre z' hz'' f hf
    | some f =>
      simp only []
      obtain ⟨fpre, fpost, hfsplit, hpf, hfpre⟩ := find?_eq_some_append hfind
      exact ⟨⟨[], rest, rfl, by simp⟩, hpf, fpre, fpost, hfsplit, hfpre⟩

/-- **C1.** `findFloodZone` walks the layers in the fixed priority order
VE, AE, AO, A, X and, within a layer, its features in stored order; it
returns the first feature the containment test accepts, tagged with that
layer's id, and `none` when no layer contains the point.  In particular a
point contained by an AE feature and an X feature (and, as the priority
rule itself requires, by no VE feature) classifies as AE. -/
theorem claim_C1 (snap : String → List ZoneFeature) (p : Pt) :
    (match findFloodZone snap p with
      | none => ∀ z ∈ zonePriority, ∀ f ∈ snap z, zoneContains p f = false
      | some m =>
          (∃ pre post, zonePriority = pre ++ m.zoneId :: post ∧
            ∀ z ∈ pre, ∀ f ∈ snap z, zoneContains p f = false) ∧
          zoneContains p m.feature = true ∧
          ∃ fpre fpost, snap m.zoneId = fpre ++ m.feature :: fpost ∧
            ∀ f ∈ fpre, zoneContains p f = false) ∧
    ((∃ f ∈ snap "AE", zoneContains p f = true) →
      (∃ f ∈ snap "X", zoneContains p f = true) →
      (∀ f ∈ snap "VE", zoneContains p f = false) →
      ∃ m : ZoneMatch, findFloodZone snap p = some m ∧ m.zoneId = "AE") := by
  constructor
  · exact findFloodZoneAux_spec snap p zonePriority
  · intro hAE _ hVE
    have hveNone : (snap "VE").find? (zoneContains p) = none :=
      List.find?_eq_none.mpr fun f hf => by simp [hVE f hf]
    have haeSome : ((snap "AE").find? (zoneContains p)).isSome := by
      rw [List.find?_isSome]
      obtain ⟨f, hf, hc⟩ := hAE
      exact ⟨f, hf, hc⟩
    obtain ⟨f, hfeq⟩ := Option.isSome_iff_exists.mp haeSome
    refine ⟨⟨"AE", f⟩, ?_, rfl⟩
    show findFloodZoneAux snap p ["VE", "AE", "AO", "A", "X"] = some ⟨"AE", f⟩
    rw [findFloodZoneAux, hveNone]
    rw [findFloodZoneAux, hfeq]

/-- Witness for C1's hypothesis-bearing parts: one AE triangle and one X
triangle both containing the origin, empty other layers. -/
theorem claim_C1_witness :
    (∃ m : ZoneMatch,
      findFloodZone
        (fun z =>
          if z = "AE" ∨ z = "X" then
            [⟨.polygon [[(-1, -1), (1, -1), (0, 2)]], none⟩]
          else [])
        (0, 0) = some m ∧ m.zoneId = "AE") := by
  refine (claim_C1 _ (0, 0)).2 ?_ ?_ ?_
  · refine ⟨⟨.polygon [[(-1, -1), (1, -1), (0, 2)]], none⟩, by simp, ?_⟩
    norm_num [zoneContains, pointInPolygonGeom, pointInRing, ringEdges,
      rayIntersects, List.foldl]
  · refine ⟨⟨.polygon [[(-1, -1), (1, -1), (0, 2)]], none⟩, by simp, ?_⟩
    norm_num [zoneContains, pointInPolygonGeom, pointInRing, ringEdges,
      rayIntersects, List.foldl]
  · intro f hf
    simp at hf

/-- The `findNearestShelter` scan decomposes: `waterIslandShelter` is the
last name-matching shelter, and `closest` is the running minimum over the
scanned shelters — all of them when the override predicate matched,
otherwise the name-matching ones are skipped. -/
theorem shelterScan_split (isWI : Bool) (dist : Shelter → ℚ) :
    ∀ (l : List Shelter) (w0 : Option Shelter) (c0 : Option (Shelter × ℚ)),
      l.foldl (shelterScanStep isWI dist) (w0, c0) =
        (l.foldl (fun acc f => if isWaterIslandShelter f then some f else acc) w0,
          (if isWI then l else l.filter (fun f => !isWaterIslandShelter f)).foldl
            (updateClosest dist) c0) := by
  intro l
  induction l with
  | nil =>
    intro w0 c0
    cases isWI <;> rfl
  | cons x rest ih =>
    intro w0 c0
    by_cases hx : isWaterIslandShelter x
    · cases isWI with
      | false =>
        have hstep : shelterScanStep false dist (w0, c0) x = (some x, c0) := by
          simp [shelterScanStep, hx]
        rw [List.foldl_cons, hstep, ih]
        simp [List.filter_cons, hx]
      | true =>
        have hstep : shelterScanStep true dist (w0, c0) x =
            (some x, updateClosest dist c0 x) := by
          simp [shelterScanStep, hx]
        rw [List.foldl_cons, hstep, ih]
        simp [hx]
    · have hstep : ∀ b, shelterScanStep b dist (w0, c0) x =
          (w0, updateClosest dist c0 x) := by
        intro b
        simp [shelterScanStep, hx]
      cases isWI with
      | false =>
        rw [List.foldl_cons, hstep, ih]
        simp [List.filter_cons, hx]
      | true =>
        rw [List.foldl_cons, hstep, ih]
        simp [hx]

/-- The `waterIslandShelter` accumulator ends as the last name-matching
shelter of the list (or the initial value if none matches). -/
theorem wisFold_eq (l : List Shelter) :
    ∀ w0, l.foldl (fun acc f => if isWaterIslandShelter f then some f else acc) w0 =
      ((l.filter isWaterIslandShelter).getLast?).or w0 := by
  induction l with
  | nil => intro w0; rfl
  | cons x rest ih =>
    intro w0
    by_cases hx : isWaterIslandShelter x
    · simp only [List.foldl_cons, hx, if_true, List.filter_cons, ih (some x)]
      rw [List.getLast?_cons]
      cases hrest : (rest.filter isWaterIslandShelter) with
      | nil => simp
      | cons y ys =>
        have : (y :: ys).getLastD x = (y :: ys).getLast (by simp) := by
          rw [List.getLastD_eq_getLast?, List.getLast?_eq_getLast _ (by simp)]
          rfl
        simp [this, List.getLast?_eq_getLast _ (show y :: ys ≠ [] by simp)]
    · rw [List.foldl_cons]
      have hacc : (if isWaterIslandShelter x = true then some x else w0) = w0 := by
        simp [hx]
      rw [hacc, ih w0]
      simp [List.filter_cons, hx]

/-- The running-minimum fold over candidates: `none` only for no
candidates, otherwise a candidate achieving the minimum distance. -/
theorem foldl_updateClosest_spec (dist : Shelter → ℚ) :
    ∀ (cands : List Shelter) (c0 : Option (Shelter × ℚ)),
      match cands.foldl (updateClosest dist) c0 with
      | none => c0 = none ∧ cands = []
      | some (f, d) =>
          ((f ∈ cands ∧ d = dist f) ∨ c0 = some (f, d)) ∧
          (∀ g ∈ cands, d ≤ dist g) ∧
          (∀ f0 d0, c0 = some (f0, d0) → d ≤ d0) := by
  intro cands
  induction cands with
  | nil =>
    intro c0
    cases c0 with
    | none => exact ⟨rfl, rfl⟩
    | some c =>
      refine ⟨Or.inr rfl, by simp, ?_⟩
      intro f0 d0 h
      cases h
      exact le_refl _
  | cons x rest ih =>
    intro c0
    rw [List.foldl_cons]
    have hx : ∃ fx dx, updateClosest dist c0 x = some (fx, dx) ∧
        dx ≤ dist x ∧ ((fx = x ∧ dx = dist x) ∨ c0 = some (fx, dx)) ∧
        (∀ f0 d0, c0 = some (f0, d0) → dx ≤ d0) := by
      cases c0 with
      | none =>
        exact ⟨x, dist x, rfl, le_refl _, Or.inl ⟨rfl, rfl⟩, by intro _ _ h; cases h⟩
      | some c =>
        obtain ⟨f0, d0⟩ := c
        by_cases hlt : dist x < d0
        · refine ⟨x, dist x, ?_, le_refl _, Or.inl ⟨rfl, rfl⟩, ?_⟩
          · simp [updateClosest, hlt]
          · intro f1 d1 h
            cases h
            exact le_of_lt hlt
        · refine ⟨f0, d0, ?_, not_lt.mp hlt, Or.inr rfl, ?_⟩
          · simp [updateClosest, hlt]
          · intro f1 d1 h
            cases h
            exact le_refl _
    obtain ⟨fx, dx, hstep, hdx, hprov, hle0⟩ := hx
    rw [hstep]
    have := ih (some (fx, dx))
    cases hres : rest.foldl (updateClosest dist) (some (fx, dx)) with
    | none =>
      rw [hres] at this
      cases this.1
    | some fd =>
      obtain ⟨f, d⟩ := fd
      rw [hres] at this
      obtain ⟨hprov', hmin', hle'⟩ := this
      have hddx : d ≤ dx := hle' fx dx rfl
      refine ⟨?_, ?_, ?_⟩
      · rcases hprov' with ⟨hmem, hdf⟩ | heq
        · exact Or.inl ⟨List.mem_cons_of_mem x hmem, hdf⟩
        · cases heq
          rcases hprov with ⟨hfx, hdxx⟩ | hc0
          · subst hfx
            exact Or.inl ⟨List.mem_cons_self _ _, hdxx⟩
          · exact Or.inr hc0
      · intro g hg
        rcases List.mem_cons.mp hg with rfl | hg'
        · exact le_trans hddx hdx
        · exact hmin' g hg'
      · intro f0 d0 hc0
        exact le_trans hddx (hle0 f0 d0 hc0)

/-- **C3.** When the parcel context's legal description does not match the
Water Island predicate, `findNearestShelter` returns a shelter minimizing
the haversine distance over all shelters excluding the name-designated
Water Island shelter(s) — and `none` if that exclusion leaves no
candidate; when the predicate matches and a designated shelter exists (the
last one in stored order), that shelter is returned directly with its
haversine distance, regardless of the distances of the others. -/
theorem claim_C3 (T : TrigOps) (shelters : List Shelter) (p : Pt)
    (legalDescription : Option String) :
    (isWaterIslandParcel legalDescription = false →
      match findNearestShelter T shelters p legalDescription with
      | none => shelters.filter (fun f => !isWaterIslandShelter f) = []
      | some (s, d) =>
          s ∈ shelters.filter (fun f => !isWaterIslandShelter f) ∧
          d = haversine T p.1 p.2 s.coords.1 s.coords.2 ∧
          ∀ g ∈ shelters.filter (fun f => !isWaterIslandShelter f),
            d ≤ haversine T p.1 p.2 g.coords.1 g.coords.2) ∧
    (isWaterIslandParcel legalDescription = true →
      ∀ w, (shelters.filter isWaterIslandShelter).getLast? = some w →
        findNearestShelter T shelters p legalDescription =
          some (w, haversine T p.1 p.2 w.coords.1 w.coords.2)) := by
  constructor
  · intro hWI
    by_cases hemp : shelters.isEmpty
    · have h1 : shelters = [] := List.isEmpty_iff.mp hemp
      subst h1
      simp [findNearestShelter]
    · have hemp' : shelters.isEmpty = false := Bool.eq_false_iff.mpr hemp
      have hsplit := shelterScan_split false
        (fun f => haversine T p.1 p.2 f.coords.1 f.coords.2) shelters none none
      have hspec := foldl_updateClosest_spec
        (fun f => haversine T p.1 p.2 f.coords.1 f.coords.2)
        (shelters.filter (fun f => !isWaterIslandShelter f)) none
      simp only [if_true, if_false, Bool.false_eq_true] at hsplit
      rw [findNearestShelter]
      simp only [hemp', Bool.false_eq_true, if_false, hWI, hsplit]
      cases hwis : shelters.foldl
          (fun acc f => if isWaterIslandShelter f then some f else acc) none with
      | none =>
        cases hclosest : (shelters.filter (fun f => !isWaterIslandShelter f)).foldl
            (updateClosest (fun f => haversine T p.1 p.2 f.coords.1 f.coords.2)) none with
        | none =>
          rw [hclosest] at hspec
          exact hspec.2
        | some fd =>
          obtain ⟨f, d⟩ := fd
          rw [hclosest] at hspec
          obtain ⟨hprov, hmin, _⟩ := hspec
          rcases hprov with ⟨hmem, hd⟩ | habs
          · exact ⟨hmem, hd, hmin⟩
          · cases habs
      | some w0 =>
        cases hclosest : (shelters.filter (fun f => !isWaterIslandShelter f)).foldl
            (updateClosest (fun f => haversine T p.1 p.2 f.coords.1 f.coords.2)) none with
        | none =>
          rw [hclosest] at hspec
          exact hspec.2
        | some fd =>
          obtain ⟨f, d⟩ := fd
          rw [hclosest] at hspec
          obtain ⟨hprov, hmin, _⟩ := hspec
          rcases hprov with ⟨hmem, hd⟩ | habs
          · exact ⟨hmem, hd, hmin⟩
          · cases habs
  · intro hWI w hw
    have hfilterne : shelters.filter isWaterIslandShelter ≠ [] := by
      intro h
      rw [h] at hw
      cases hw
    have hne : shelters ≠ [] := by
      intro h
      subst h
      exact hfilterne rfl
    have hemp' : shelters.isEmpty = false := by
      cases shelters with
      | nil => exact absurd rfl hne
      | cons a l => rfl
    have hsplit := shelterScan_split true
      (fun f => haversine T p.1 p.2 f.coords.1 f.coords.2) shelters none none
    simp only [if_true] at hsplit
    have hwis := wisFold_eq shelters (none : Option Shelter)
    rw [hw] at hwis
    rw [findNearestShelter]
    simp only [hemp', Bool.false_eq_true, if_false, hWI, hsplit, hwis, Option.or]

/-- Witness for C3.  The trig pack `⟨id, id, id, (a, b) ↦ a, 180⟩` makes
`haversine` computable; with shelters `Alpha` at `(0, 1)` and
`Water Island Station` at `(0, 2)` and query point `(0, 0)`: without a
Water Island legal description the result is the spec's minimizer over
the non-designated shelters, and with one the designated shelter is
returned directly with its haversine distance. -/
theorem claim_C3_witness :
    (match findNearestShelter ⟨id, id, id, (fun a _ => a), 180⟩
        [⟨"Alpha", (0, 1)⟩, ⟨"Water Island Station", (0, 2)⟩] (0, 0) none with
      | none =>
          ([⟨"Alpha", (0, 1)⟩, ⟨"Water Island Station", (0, 2)⟩].filter
            (fun f => !isWaterIslandShelter f)) = []
      | some (s, d) =>
          s ∈ [⟨"Alpha", (0, 1)⟩, ⟨"Water Island Station", (0, 2)⟩].filter
              (fun f => !isWaterIslandShelter f) ∧
          d = haversine ⟨id, id, id, (fun a _ => a), 180⟩ 0 0 s.coords.1 s.coords.2 ∧
          ∀ g ∈ [⟨"Alpha", (0, 1)⟩, ⟨"Water Island Station", (0, 2)⟩].filter
              (fun f => !isWaterIslandShelter f),
            d ≤ haversine ⟨id, id, id, (fun a _ => a), 180⟩ 0 0 g.coords.1 g.coords.2) ∧
    findNearestShelter ⟨id, id, id, (fun a _ => a), 180⟩
        [⟨"Alpha", (0, 1)⟩, ⟨"Water Island Station", (0, 2)⟩] (0, 0)
        (some "LOT 1 WATER ISLAND") =
      some (⟨"Water Island Station", (0, 2)⟩,
        haversine ⟨id, id, id, (fun a _ => a), 180⟩ 0 0 0 2) := by
  constructor
  · exact (claim_C3 ⟨id, id, id, (fun a _ => a), 180⟩
      [⟨"Alpha", (0, 1)⟩, ⟨"Water Island Station", (0, 2)⟩] (0, 0) none).1 rfl
  · exact (claim_C3 ⟨id, id, id, (fun a _ => a), 180⟩
      [⟨"Alpha", (0, 1)⟩, ⟨"Water Island Station", (0, 2)⟩] (0, 0)
      (some "LOT 1 WATER ISLAND")).2 (by decide) ⟨"Water Island Station", (0, 2)⟩ rfl

/-- Correctness of the ranker's binary-search loop on a sorted list: with
adequate fuel it returns the lower bound of `value` (the first index whose
element is `≥ value`), expressed by its two boundary properties. -/
theorem lowerBoundLoop_spec (s : List ℚ) (value : ℚ)
    (hs : List.Sorted (· ≤ ·) s) :
    ∀ (fuel : ℕ) (low high : ℤ), 0 ≤ low → high < s.length → low ≤ high + 1 →
      (high + 1 - low).toNat < fuel →
      (∀ i : ℕ, (i : ℤ) < low → s.getD i 0 < value) →
      (∀ i : ℕ, high < (i : ℤ) → i < s.length → ¬(s.getD i 0 < value)) →
      0 ≤ lowerBoundLoop s value fuel low high ∧
      lowerBoundLoop s value fuel low high ≤ s.length ∧
      (∀ i : ℕ, (i : ℤ) < lowerBoundLoop s value fuel low high →
        s.getD i 0 < value) ∧
      (∀ i : ℕ, lowerBoundLoop s value fuel low high ≤ (i : ℤ) →
        i < s.length → ¬(s.getD i 0 < value)) := by
  intro fuel
  induction fuel with
  | zero =>
    intro low high _ _ _ hfuel _ _
    exact absurd hfuel (Nat.not_lt_zero _)
  | succ fuel ih =>
    intro low high hlow0 hhigh hlh1 hfuel hbelow habove
    rw [lowerBoundLoop]
    by_cases hlh : low ≤ high
    · rw [if_pos hlh]
      have hmid1 : low ≤ (low + high) / 2 := by omega
      have hmid2 : (low + high) / 2 ≤ high := by omega
      have hmidn : ((low + high) / 2).toNat < s.length := by omega
      by_cases hv : s.getD ((low + high) / 2).toNat 0 < value
      · rw [if_pos hv]
        refine ih ((low + high) / 2 + 1) high (by omega) hhigh (by omega) (by omega)
          ?_ habove
        intro i hi
        have hile : i ≤ ((low + high) / 2).toNat := by omega
        exact lt_of_le_of_lt (sorted_getD_le s hs hile hmidn) hv
      · rw [if_neg hv]
        refine ih low ((low + high) / 2 - 1) hlow0 (by omega) (by omega) (by omega)
          hbelow ?_
        intro i hi hin
        have hmle : ((low + high) / 2).toNat ≤ i := by omega
        exact not_lt.mpr (le_trans (not_lt.mp hv) (sorted_getD_le s hs hmle hin))
    · rw [if_neg hlh]
      refine ⟨hlow0, by omega, hbelow, ?_⟩
      intro i hi hin
      exact habove i (by omega) hin

/-- The forward equal-run scan: with adequate fuel it lands on an index of
the run whose successor (if any) no longer equals `value`. -/
theorem scanFwdLoop_spec (s : List ℚ) (value : ℚ) :
    ∀ (fuel i : ℕ), i < s.length → s.getD i 0 = value → s.length - i ≤ fuel →
      i ≤ scanFwdLoop s value fuel i ∧
      scanFwdLoop s value fuel i < s.length ∧
      s.getD (scanFwdLoop s value fuel i) 0 = value ∧
      (scanFwdLoop s value fuel i + 1 = s.length ∨
        s.getD (scanFwdLoop s value fuel i + 1) 0 ≠ value) := by
  intro fuel
  induction fuel with
  | zero =>
    intro i hin _ hfuel
    omega
  | succ fuel ih =>
    intro i hin hval hfuel
    rw [scanFwdLoop]
    by_cases hc : i + 1 < s.length ∧ s.getD (i + 1) 0 = value
    · rw [if_pos hc]
      obtain ⟨h1, h2, h3, h4⟩ := ih (i + 1) hc.1 hc.2 (by omega)
      exact ⟨by omega, h2, h3, h4⟩
    · rw [if_neg hc]
      refine ⟨le_refl _, hin, hval, ?_⟩
      by_cases h1 : i + 1 < s.length
      · exact Or.inr fun h2 => hc ⟨h1, h2⟩
      · exact Or.inl (by omega)

/-- The backward scan is the identity when the preceding element does not
equal `value` (the binary search already lands on the first match, so the
source's defensive loop never iterates). -/
theorem scanBackLoop_stop (s : List ℚ) (value : ℚ) (fuel i : ℕ)
    (h : ¬(0 < i ∧ s.getD (i - 1) 0 = value)) :
    scanBackLoop s value (fuel + 1) i = i := by
  rw [scanBackLoop, if_neg h]

/-- Path analysis of `rankGeneral` for a query strictly between the sorted
distribution's minimum and maximum: the binary search lands on the lower
bound `R` of the query, the defensive backward scan is a no-op, and the
result is the tie formula at `R` (when `s[R] = value`) or the
interpolation formula between `R-1` and `R`. -/
theorem rankGeneral_inside (s : List ℚ) (value : ℚ)
    (hs : List.Sorted (· ≤ ·) s) (h2 : 2 ≤ s.length)
    (hlo : s.getD 0 0 < value) (hhi : value < s.getD (s.length - 1) 0) :
    ∃ R : ℕ, 1 ≤ R ∧ R ≤ s.length - 1 ∧
      (∀ i, i < R → s.getD i 0 < value) ∧
      (∀ i, R ≤ i → i < s.length → value ≤ s.getD i 0) ∧
      rankGeneral s value =
        (if s.getD R 0 = value then
          ((R : ℚ) + ((scanFwdLoop s value s.length R : ℕ) : ℚ)) / 2 /
            (((s.length - 1 : ℕ) : ℚ))
        else
          (((R : ℚ) - 1) + (value - s.getD (R - 1) 0) /
              (s.getD R 0 - s.getD (R - 1) 0)) / (((s.length - 1 : ℕ) : ℚ))) := by
  have hspec := lowerBoundLoop_spec s value hs (s.length + 1) 0
    (((s.length - 1 : ℕ) : ℤ)) le_rfl (by exact_mod_cast Nat.sub_lt (by omega) one_pos)
    (by omega) (by omega)
    (fun i hi => absurd hi (by omega))
    (fun i hi hin => absurd hin (by omega))
  obtain ⟨hr0, hrn, hb, ha⟩ := hspec
  set r := lowerBoundLoop s value (s.length + 1) 0 (((s.length - 1 : ℕ) : ℤ)) with hrdef
  have hR1 : 1 ≤ r := by
    by_contra h
    exact absurd hlo (ha 0 (by omega) (by omega))
  have hRtop : r ≤ (s.length : ℤ) - 1 := by
    by_contra h
    have := hb (s.length - 1) (by omega)
    exact absurd this (not_lt.mpr (le_of_lt hhi))
  refine ⟨r.toNat, by omega, by omega, ?_, ?_, ?_⟩
  · intro i hi
    exact hb i (by omega)
  · intro i hi hin
    exact not_lt.mp (ha i (by omega) hin)
  · have hback : scanBackLoop s value s.length (max 0 r).toNat = r.toNat := by
      obtain ⟨m, hm⟩ : ∃ m, s.length = m + 1 := ⟨s.length - 1, by omega⟩
      have hmax : (max 0 r).toNat = r.toNat := by omega
      rw [hm, hmax]
      refine scanBackLoop_stop s value m r.toNat ?_
      rintro ⟨hpos, heq⟩
      exact absurd heq (ne_of_lt (hb (r.toNat - 1) (by omega)))
    rw [rankGeneral]
    rw [if_neg (not_le.mpr hlo)]
    rw [if_neg (not_le.mpr hhi)]
    simp only [← hrdef, hback]
    by_cases hv : s.getD r.toNat 0 = value
    · rw [if_pos hv, if_pos hv]
    · rw [if_neg hv, if_neg hv]
      have h1' : s.getD (r.toNat - 1) 0 < value := hb (r.toNat - 1) (by omega)
      have h2' : value < s.getD r.toNat 0 :=
        lt_of_le_of_ne (not_lt.mp (ha r.toNat (by omega) (by omega))) (Ne.symm hv)
      have hspan : ¬(s.getD r.toNat 0 - s.getD (r.toNat - 1) 0 = 0) := by
        intro h
        have : s.getD (r.toNat - 1) 0 < s.getD r.toNat 0 := lt_trans h1' h2'
        linarith
      rw [if_neg hspan]

/-- With at least two distinct values, `createPercentileRanker` takes its
general branch. -/
theorem createPercentileRanker_general (values : List ℚ)
    (h2 : 2 ≤ values.length)
    (hd : (values.mergeSort (fun a b => decide (a ≤ b))).getD 0 0 ≠
        (values.mergeSort (fun a b => decide (a ≤ b))).getD
          ((values.mergeSort (fun a b => decide (a ≤ b))).length - 1) 0) :
    ∀ value : ℚ, createPercentileRanker values value =
      some (rankGeneral (values.mergeSort (fun a b => decide (a ≤ b))) value) := by
  intro value
  have hlen : (values.mergeSort (fun a b => decide (a ≤ b))).length = values.length :=
    List.length_mergeSort values
  rw [createPercentileRanker]
  simp only [hlen]
  rw [if_neg (by omega), if_neg (by omega), if_neg (by rw [← hlen] at *; exact hd)]

/-- **C4, counterexample.** For the distribution `[10, 10, 20]` (two
distinct finite values) and query `10`, the ranker returns `0` (the code's
`value <= sorted[0]` branch), while the claim's tie rule — mean positional
index of the matching occurrences 0 and 1, divided by count−1 — demands
`(0+1)/2/2 = 1/4`. -/
theorem claim_C4_counterexample :
    createPercentileRanker [10, 10, 20] 10 = some 0 ∧
    (0 : ℚ) ≠ (((0 : ℚ) + 1) / 2) / ((3 : ℚ) - 1) := by
  constructor
  · have hmerge : ([10, 10, 20] : List ℚ).mergeSort (fun a b => decide (a ≤ b)) =
        [10, 10, 20] := by
      refine List.eq_of_perm_of_sorted (List.mergeSort_perm _ _)
        (List.sorted_mergeSort' _) ?_
      norm_num [List.sorted_cons]
    have hgen := createPercentileRanker_general [10, 10, 20] (by norm_num)
      (by rw [hmerge]; norm_num [List.getD])
    rw [hgen 10, hmerge, rankGeneral, if_pos (by norm_num [List.getD])]
  · norm_num

/-- **C4, amended.** For every distribution with at least two distinct
values, writing `s` for the ascending sort: a query at or *below* the
minimum ranks 0 (the claim said only "below"; a query equal to a
duplicated minimum also ranks 0, not at the tie rule's mean index); a
query at or above the maximum ranks 1; a query equal to stored values and
strictly between minimum and maximum ranks at the mean positional index of
the matching occurrences divided by count−1; and a query strictly between
two adjacent stored values ranks at the linearly interpolated fractional
index divided by count−1. -/
theorem claim_C4_amended (values : List ℚ) (h2 : 2 ≤ values.length)
    (hd : (values.mergeSort (fun a b => decide (a ≤ b))).getD 0 0 ≠
        (values.mergeSort (fun a b => decide (a ≤ b))).getD (values.length - 1) 0) :
    (∀ value : ℚ,
        value ≤ (values.mergeSort (fun a b => decide (a ≤ b))).getD 0 0 →
        createPercentileRanker values value = some 0) ∧
    (∀ value : ℚ,
        (values.mergeSort (fun a b => decide (a ≤ b))).getD (values.length - 1) 0 ≤
          value →
        createPercentileRanker values value = some 1) ∧
    (∀ (value : ℚ) (i j : ℕ), i ≤ j → j < values.length →
        (∀ k, k < values.length →
          ((values.mergeSort (fun a b => decide (a ≤ b))).getD k 0 = value ↔
            i ≤ k ∧ k ≤ j)) →
        (values.mergeSort (fun a b => decide (a ≤ b))).getD 0 0 < value →
        value < (values.mergeSort (fun a b => decide (a ≤ b))).getD
          (values.length - 1) 0 →
        createPercentileRanker values value =
          some (((i : ℚ) + (j : ℚ)) / 2 / ((values.length : ℚ) - 1))) ∧
    (∀ (value : ℚ) (i : ℕ), i + 1 < values.length →
        (values.mergeSort (fun a b => decide (a ≤ b))).getD i 0 < value →
        value < (values.mergeSort (fun a b => decide (a ≤ b))).getD (i + 1) 0 →
        createPercentileRanker values value =
          some (((i : ℚ) +
              (value - (values.mergeSort (fun a b => decide (a ≤ b))).getD i 0) /
                ((values.mergeSort (fun a b => decide (a ≤ b))).getD (i + 1) 0 -
                  (values.mergeSort (fun a b => decide (a ≤ b))).getD i 0)) /
            ((values.length : ℚ) - 1))) := by
  have hlen : (values.mergeSort (fun a b => decide (a ≤ b))).length = values.length :=
    List.length_mergeSort values
  have hs : List.Sorted (· ≤ ·) (values.mergeSort (fun a b => decide (a ≤ b))) :=
    List.sorted_mergeSort' values
  set s := values.mergeSort (fun a b => decide (a ≤ b)) with hsdef
  have hd' : s.getD 0 0 ≠ s.getD (s.length - 1) 0 := by rw [hlen]; exact hd
  have hgen := createPercentileRanker_general values h2 (by rw [← hsdef, hlen]; exact hd)
  have hcast : ((s.length - 1 : ℕ) : ℚ) = ((values.length : ℚ) - 1) := by
    rw [hlen]
    have : 1 ≤ values.length := by omega
    push_cast [Nat.cast_sub this]
    ring
  refine ⟨?_, ?_, ?_, ?_⟩
  · intro value hv
    rw [hgen value, rankGeneral, if_pos hv]
  · intro value hv
    have h0max : s.getD 0 0 < value := by
      have h01 : s.getD 0 0 ≤ s.getD (s.length - 1) 0 :=
        sorted_getD_le s hs (by omega) (by omega)
      have : s.getD 0 0 < s.getD (s.length - 1) 0 := lt_of_le_of_ne h01 hd'
      calc s.getD 0 0 < s.getD (s.length - 1) 0 := this
        _ ≤ value := by rw [hlen]; exact hv
    rw [hgen value, rankGeneral, if_neg (not_le.mpr h0max),
      if_pos (by rw [hlen]; exact hv)]
  · intro value i j hij hjn hblock hlo hhi
    have hhi' : value < s.getD (s.length - 1) 0 := by rw [hlen]; exact hhi
    obtain ⟨R, hR1, hRtop, hbelow, habove, heval⟩ :=
      rankGeneral_inside s value hs (by omega) hlo hhi'
    have hiv : s.getD i 0 = value := (hblock i (by omega)).mpr ⟨le_refl _, hij⟩
    have hRi : R = i := by
      rcases lt_trichotomy R i with h | h | h
      · have hvR : value ≤ s.getD R 0 := habove R (le_refl _) (by omega)
        have hRlei : s.getD R 0 ≤ s.getD i 0 :=
          sorted_getD_le s hs (le_of_lt h) (by omega)
        have : s.getD R 0 = value := le_antisymm (by rw [← hiv]; exact hRlei) hvR
        have := (hblock R (by omega)).mp this
        omega
      · exact h
      · exact absurd hiv (ne_of_lt (hbelow i h))
    rw [hRi] at heval
    have hfwd := scanFwdLoop_spec s value s.length i (by omega) hiv (by omega)
    obtain ⟨hj1, hj2, hj3, hj4⟩ := hfwd
    have hJj : scanFwdLoop s value s.length i = j := by
      have hle : scanFwdLoop s value s.length i ≤ j :=
        ((hblock _ (by omega)).mp hj3).2
      rcases lt_or_eq_of_le hle with h | h
      · have hnext : s.getD (scanFwdLoop s value s.length i + 1) 0 = value :=
          (hblock _ (by omega)).mpr ⟨by omega, by omega⟩
        rcases hj4 with h4 | h4
        · omega
        · exact absurd hnext h4
      · exact h
    rw [hgen value, heval, if_pos hiv, hJj, hcast]
  · intro value i hin hlow hhigh
    have hlo : s.getD 0 0 < value :=
      lt_of_le_of_lt (sorted_getD_le s hs (Nat.zero_le i) (by omega)) hlow
    have hhi' : value < s.getD (s.length - 1) 0 :=
      lt_of_lt_of_le hhigh (sorted_getD_le s hs (by omega) (by omega))
    obtain ⟨R, hR1, hRtop, hbelow, habove, heval⟩ :=
      rankGeneral_inside s value hs (by omega) hlo hhi'
    have hRi : R = i + 1 := by
      rcases lt_trichotomy R (i + 1) with h | h | h
      · have hvR : value ≤ s.getD R 0 := habove R (le_refl _) (by omega)
        have : s.getD R 0 ≤ s.getD i 0 := sorted_getD_le s hs (by omega) (by omega)
        linarith
      · exact h
      · exact absurd (hbelow (i + 1) h) (not_lt.mpr (le_of_lt hhigh))
    rw [hRi] at heval
    have hne : ¬(s.getD (i + 1) 0 = value) := ne_of_gt hhigh
    rw [hgen value, heval, if_neg hne, hcast]
    congr 1
    have hsub : i + 1 - 1 = i := by omega
    rw [hsub]
    push_cast
    ring

/-- Witness for the amended C4 on the claim's own example `[10,20,20,30]`:
rank(10) = 0, rank(30) = 1, rank(20) = (1+2)/2/3 = 1/2,
rank(25) = (2 + (25−20)/(30−20))/3 = 5/6. -/
theorem claim_C4_amended_witness :
    createPercentileRanker [10, 20, 20, 30] 10 = some 0 ∧
    createPercentileRanker [10, 20, 20, 30] 30 = some 1 ∧
    createPercentileRanker [10, 20, 20, 30] 20 = some (1/2) ∧
    createPercentileRanker [10, 20, 20, 30] 25 = some (5/6) := by
  have hmerge : ([10, 20, 20, 30] : List ℚ).mergeSort (fun a b => decide (a ≤ b)) =
      [10, 20, 20, 30] := by
    refine List.eq_of_perm_of_sorted (List.mergeSort_perm _ _)
      (List.sorted_mergeSort' _) ?_
    norm_num [List.sorted_cons]
  have h := claim_C4_amended [10, 20, 20, 30] (by norm_num)
    (by rw [hmerge]; norm_num [List.getD])
  refine ⟨?_, ?_, ?_, ?_⟩
  · exact h.1 10 (by rw [hmerge]; norm_num [List.getD])
  · exact h.2.1 30 (by rw [hmerge]; norm_num [List.getD])
  · refine (h.2.2.1 20 1 2 (by norm_num) (by norm_num) ?_
      (by rw [hmerge]; norm_num [List.getD]) (by rw [hmerge]; norm_num [List.getD])).trans
      (by norm_num)
    intro k hk
    rw [hmerge]
    have hk4 : k < 4 := by simpa using hk
    interval_cases k <;> norm_num [List.getD]
  · exact (h.2.2.2 25 2 (by norm_num) (by rw [hmerge]; norm_num [List.getD])
      (by rw [hmerge]; norm_num [List.getD])).trans
      (by rw [hmerge]; norm_num [List.getD])

/-- The parity fold of `pointInRing` computes the crossing count mod 2. -/
theorem foldl_toggle_eq (q : Pt × Pt → Bool) (l : List (Pt × Pt)) :
    ∀ b : Bool,
      l.foldl (fun inside e => if q e then !inside else inside) b =
        (b != (l.countP q % 2 == 1)) := by
  induction l with
  | nil => intro b; simp
  | cons e rest ih =>
    intro b
    rw [List.foldl_cons]
    by_cases hq : q e
    · rw [if_pos hq, ih, List.countP_cons_of_pos _ _ hq]
      have hpar : ((rest.countP q + 1) % 2 == 1) = !(rest.countP q % 2 == 1) := by
        rcases Nat.mod_two_eq_zero_or_one (rest.countP q) with h | h <;>
          simp [Nat.add_mod, h]
      rw [hpar]
      cases b <;> cases hx : (rest.countP q % 2 == 1) <;> simp
    · rw [if_neg hq, ih, List.countP_cons_of_neg _ _ hq]

/-- `pointInRing` is the parity of the number of counted edges. -/
theorem pointInRing_eq_parity (p : Pt) (ring : List Pt) :
    pointInRing p ring =
      ((ringEdges ring).countP (fun e => rayIntersects p e.1 e.2) % 2 == 1) := by
  rw [pointInRing, foldl_toggle_eq]
  cases hx : ((ringEdges ring).countP (fun e => rayIntersects p e.1 e.2) % 2 == 1) <;>
    simp [hx]

/-- The ray test is the straddle test combined with the x comparison. -/
theorem rayIntersects_eq (p : Pt) (e : Pt × Pt) :
    rayIntersects p e.1 e.2 = (straddles p.2 e && decide (p.1 < xCross p.2 e)) := rfl

/-- Straddling edges split into upward and downward ones. -/
theorem countP_straddle_split (y : ℚ) (l : List (Pt × Pt)) :
    l.countP (straddles y) =
      l.countP (straddlesUp y) + l.countP (straddlesDown y) := by
  induction l with
  | nil => rfl
  | cons e rest ih =>
    by_cases h1 : e.1.2 > y <;> by_cases h2 : e.2.2 > y <;>
      simp [straddles, straddlesUp, straddlesDown, List.countP_cons, h1, h2, ih] <;>
      omega

theorem sum_map_sub {α : Type} (f g : α → ℤ) (l : List α) :
    (l.map (fun x => f x - g x)).sum = (l.map f).sum - (l.map g).sum := by
  induction l with
  | nil => simp
  | cons x rest ih => simp [ih]; ring

/-- Counted up-down difference as a telescoping sum of the "above the
line" indicator over edge endpoints. -/
theorem countP_up_sub_down (y : ℚ) (l : List (Pt × Pt)) :
    (l.countP (straddlesUp y) : ℤ) - (l.countP (straddlesDown y) : ℤ) =
      (l.map (fun e => (if y < e.2.2 then (1 : ℤ) else 0) -
        (if y < e.1.2 then (1 : ℤ) else 0))).sum := by
  induction l with
  | nil => simp
  | cons e rest ih =>
    by_cases h1 : e.1.2 > y <;> by_cases h2 : e.2.2 > y <;>
      simp [straddlesUp, straddlesDown, List.countP_cons, h1, h2] <;> omega

/-- Around a closed ring, upward and downward crossings balance. -/
theorem countP_up_eq_down (y : ℚ) (ring : List Pt) :
    (ringEdges ring).countP (straddlesUp y) =
      (ringEdges ring).countP (straddlesDown y) := by
  cases hr : ring with
  | nil => rfl
  | cons r0 rrest =>
    rw [← hr]
    have hne : ring ≠ [] := by rw [hr]; simp
    have hlen : (ring.getLastD (0, 0) :: ring.dropLast).length = ring.length := by
      rw [List.length_cons, List.length_dropLast]
      have : 0 < ring.length := List.length_pos.mpr hne
      omega
    have hperm : (ring.getLastD (0, 0) :: ring.dropLast).Perm ring := by
      have h1 : ring.getLastD (0, 0) :: ring.dropLast =
          [ring.getLast hne] ++ ring.dropLast := by
        rw [List.getLastD_eq_getLast?, List.getLast?_eq_getLast ring hne]
        rfl
      rw [h1]
      have h2 := @List.perm_append_comm _ [ring.getLast hne] ring.dropLast
      rw [List.dropLast_append_getLast hne] at h2
      exact h2
    have hc : ∀ c : Pt → ℤ,
        ((ringEdges ring).map (fun e => c e.2 - c e.1)).sum = 0 := by
      intro c
      rw [ringEdges]
      cases hr2 : ring with
      | nil => exact absurd hr2 hne
      | cons a as =>
        rw [← hr2]
        rw [sum_map_sub]
        have hfst : ((ring.getLastD (0, 0) :: ring.dropLast).zip ring).map Prod.fst =
            ring.getLastD (0, 0) :: ring.dropLast :=
          List.map_fst_zip _ _ (by rw [hlen])
        have hsnd : ((ring.getLastD (0, 0) :: ring.dropLast).zip ring).map Prod.snd =
            ring := List.map_snd_zip _ _ (by rw [hlen])
        have e1 : (((ring.getLastD (0, 0) :: ring.dropLast).zip ring).map
            (fun e => c e.2)).sum = ((ring.map c).sum) := by
          rw [show (fun e : Pt × Pt => c e.2) = c ∘ Prod.snd from rfl,
            ← List.map_map, hsnd]
        have e2 : (((ring.getLastD (0, 0) :: ring.dropLast).zip ring).map
            (fun e => c e.1)).sum = ((ring.map c).sum) := by
          rw [show (fun e : Pt × Pt => c e.1) = c ∘ Prod.fst from rfl,
            ← List.map_map, hfst]
          exact List.Perm.sum_eq (hperm.map c)
        rw [e1, e2]
        ring
    have := hc (fun v => if y < v.2 then (1 : ℤ) else 0)
    rw [← countP_up_sub_down] at this
    omega

/-- A convex combination stays between its two endpoints. -/
theorem convex_combo_bounds (x1 x2 t : ℚ) (h0 : 0 ≤ t) (h1 : t ≤ 1) :
    min x1 x2 ≤ t * x1 + (1 - t) * x2 ∧ t * x1 + (1 - t) * x2 ≤ max x1 x2 := by
  constructor
  · rcases le_total x1 x2 with h | h
    · rw [min_eq_left h]; nlinarith
    · rw [min_eq_right h]; nlinarith
  · rcases le_total x1 x2 with h | h
    · rw [max_eq_right h]; nlinarith
    · rw [max_eq_left h]; nlinarith

/-- The crossing x-coordinate of a straddling edge lies between the
x-coordinates of its endpoints. -/
theorem xCross_mem (y : ℚ) (e : Pt × Pt) (h : straddles y e = true) :
    min e.1.1 e.2.1 ≤ xCross y e ∧ xCross y e ≤ max e.1.1 e.2.1 := by
  obtain ⟨a, b⟩ := e
  simp only [straddles, bne_iff_ne, ne_eq, decide_eq_decide] at h
  have hcases : (b.2 > y ∧ ¬(a.2 > y)) ∨ (a.2 > y ∧ ¬(b.2 > y)) := by tauto
  have hden : a.2 - b.2 ≠ 0 := by
    rcases hcases with ⟨hb, ha⟩ | ⟨ha, hb⟩ <;> intro hd
    · exact ha (by linarith [sub_eq_zero.mp hd])
    · exact hb (by linarith [sub_eq_zero.mp hd])
  have ht : 0 ≤ (y - b.2) / (a.2 - b.2) ∧ (y - b.2) / (a.2 - b.2) ≤ 1 := by
    rcases hcases with ⟨hb, ha⟩ | ⟨ha, hb⟩
    · push_neg at ha
      have hd : a.2 - b.2 < 0 := by linarith
      constructor
      · rw [le_div_iff_of_neg hd]
        linarith
      · rw [div_le_iff_of_neg hd]
        linarith
    · push_neg at hb
      have hd : 0 < a.2 - b.2 := by linarith
      constructor
      · apply div_nonneg (by linarith) (le_of_lt hd)
      · rw [div_le_one hd]
        linarith
  have hx : xCross y (a, b) =
      ((y - b.2) / (a.2 - b.2)) * a.1 + (1 - (y - b.2) / (a.2 - b.2)) * b.1 := by
    rw [xCross]
    field_simp
    ring
  rw [hx]
  exact convex_combo_bounds a.1 b.1 _ ht.1 ht.2

/-- The bbox fold only widens the box, and bounds every folded point. -/
theorem boundsFold_spec :
    ∀ (rest : List Pt) (init : BBox),
      (rest.foldl bboxUpd init).minLon ≤ init.minLon ∧
      init.maxLon ≤ (rest.foldl bboxUpd init).maxLon ∧
      (rest.foldl bboxUpd init).minLat ≤ init.minLat ∧
      init.maxLat ≤ (rest.foldl bboxUpd init).maxLat ∧
      ∀ c ∈ rest, inBox c (rest.foldl bboxUpd init) := by
  intro rest
  induction rest with
  | nil =>
    intro init
    refine ⟨le_refl _, le_refl _, le_refl _, le_refl _, ?_⟩
    intro c hc
    cases hc
  | cons q rest ih =>
    intro init
    rw [List.foldl_cons]
    obtain ⟨h1, h2, h3, h4, h5⟩ := ih (bboxUpd init q)
    refine ⟨le_trans h1 (min_le_left _ _), le_trans (le_max_left _ _) h2,
      le_trans h3 (min_le_left _ _), le_trans (le_max_left _ _) h4, ?_⟩
    intro c hc
    rcases List.mem_cons.mp hc with rfl | hc'
    · exact ⟨le_trans h1 (min_le_right _ _), le_trans (le_max_right _ _) h2,
        le_trans h3 (min_le_right _ _), le_trans (le_max_right _ _) h4⟩
    · exact h5 c hc'

/-- `geometryBounds` really bounds every coordinate of its geometry. -/
theorem geometryBounds_inBox (g : Geometry) (bb : BBox)
    (h : geometryBounds g = some bb) : ∀ c ∈ coordsOf g, inBox c bb := by
  have h' : boundsOfCoords (coordsOf g) = some bb := by
    cases g <;> exact h
  cases hcs : coordsOf g with
  | nil =>
    intro c hc
    cases hc
  | cons c0 rest =>
    rw [hcs] at h'
    rw [boundsOfCoords] at h'
    injection h' with h''
    obtain ⟨h1, h2, h3, h4, h5⟩ := boundsFold_spec rest ⟨c0.1, c0.2, c0.1, c0.2⟩
    intro c hc
    rcases List.mem_cons.mp hc with rfl | hc'
    · rw [← h'']
      exact ⟨h1, h2, h3, h4⟩
    · rw [← h'']
      exact h5 c hc'

/-- Edge endpoints of `ringEdges` are vertices of the ring. -/
theorem ringEdges_mem {ring : List Pt} {e : Pt × Pt}
    (h : e ∈ ringEdges ring) : e.1 ∈ ring ∧ e.2 ∈ ring := by
  have hne : ring ≠ [] := by
    intro hr
    rw [hr] at h
    simp [ringEdges] at h
  obtain ⟨a, b⟩ := e
  rw [ringEdges] at h
  obtain ⟨h1, h2⟩ := List.of_mem_zip h
  refine ⟨?_, h2⟩
  rcases List.mem_cons.mp h1 with rfl | h1'
  · rw [List.getLastD_eq_getLast?, List.getLast?_eq_getLast ring hne]
    exact List.getLast_mem hne
  · exact List.dropLast_subset ring h1'

/-- Core of C6: an odd ray-crossing parity forces the query point into any
box bounding all ring vertices. -/
theorem pointInRing_true_inBox (p : Pt) (ring : List Pt) (bb : BBox)
    (hring : ∀ c ∈ ring, inBox c bb) (h : pointInRing p ring = true) :
    pointWithinBounds p bb = true := by
  rw [pointInRing_eq_parity] at h
  have hodd : (ringEdges ring).countP (fun e => rayIntersects p e.1 e.2) % 2 = 1 := by
    simpa using h
  have hpos : 0 < (ringEdges ring).countP (fun e => rayIntersects p e.1 e.2) := by
    omega
  obtain ⟨e, hemem, hecross⟩ := List.countP_pos_iff.mp hpos
  obtain ⟨hma, hmb⟩ := ringEdges_mem hemem
  rw [rayIntersects_eq] at hecross
  obtain ⟨hstrad, hxlt⟩ := Bool.and_eq_true_iff.mp hecross
  have hxlt' : p.1 < xCross p.2 e := of_decide_eq_true hxlt
  have hboxa := hring e.1 hma
  have hboxb := hring e.2 hmb
  -- the straddling endpoint configuration
  have hstrad' : (e.2.2 > p.2 ∧ ¬(e.1.2 > p.2)) ∨ (e.1.2 > p.2 ∧ ¬(e.2.2 > p.2)) := by
    have := hstrad
    simp only [straddles, bne_iff_ne, ne_eq, decide_eq_decide] at this
    tauto
  have hlat : bb.minLat ≤ p.2 ∧ p.2 ≤ bb.maxLat := by
    rcases hstrad' with ⟨hb, ha⟩ | ⟨ha, hb⟩
    · push_neg at ha
      exact ⟨le_trans hboxa.2.2.1 ha, le_trans (le_of_lt hb) hboxb.2.2.2⟩
    · push_neg at hb
      exact ⟨le_trans hboxb.2.2.1 hb, le_trans (le_of_lt ha) hboxa.2.2.2⟩
  have hxmax : p.1 ≤ bb.maxLon := by
    have hmem := xCross_mem p.2 e hstrad
    have : xCross p.2 e ≤ max e.1.1 e.2.1 := hmem.2
    have hmax : max e.1.1 e.2.1 ≤ bb.maxLon := max_le hboxa.2.1 hboxb.2.1
    linarith
  have hxmin : bb.minLon ≤ p.1 := by
    by_contra hlt
    push_neg at hlt
    have hcongr : (ringEdges ring).countP (fun e => rayIntersects p e.1 e.2) =
        (ringEdges ring).countP (straddles p.2) := by
      refine List.countP_congr ?_
      intro e' he'
      obtain ⟨ha', hb'⟩ := ringEdges_mem he'
      rw [rayIntersects_eq]
      constructor
      · intro hh
        exact (Bool.and_eq_true_iff.mp hh).1
      · intro hh
        rw [hh]
        simp only [Bool.true_and, decide_eq_true_eq]
        have hmem := xCross_mem p.2 e' hh
        have : bb.minLon ≤ min e'.1.1 e'.2.1 :=
          le_min (hring e'.1 ha').1 (hring e'.2 hb').1
        linarith [hmem.1]
    rw [hcongr, countP_straddle_split, countP_up_eq_down] at hodd
    omega
  rw [pointWithinBounds]
  simp only [ge_iff_le, Bool.and_eq_true, decide_eq_true_eq]
  exact ⟨⟨⟨hxmin, hxmax⟩, hlat.1⟩, hlat.2⟩

/-- A successful containment test pins down a ring (the relevant outer
ring) whose vertices all belong to the geometry's coordinates. -/
theorem pointInPolygonGeom_true_ring (p : Pt) (g : Geometry)
    (h : pointInPolygonGeom p g = true) :
    ∃ ring, (∀ c ∈ ring, c ∈ coordsOf g) ∧ pointInRing p ring = true := by
  cases g with
  | polygon rings =>
    cases rings with
    | nil => cases h
    | cons outer holes =>
      have hir : pointInRing p outer = true := by
        by_contra hno
        have : pointInRing p outer = false := by
          cases hres : pointInRing p outer
          · rfl
          · exact absurd hres hno
        rw [pointInPolygonGeom] at h
        rw [this] at h
        cases h
      refine ⟨outer, ?_, hir⟩
      intro c hc
      exact List.mem_flatten.mpr ⟨outer, List.mem_cons_self _ _, hc⟩
  | multiPolygon polys =>
    rw [pointInPolygonGeom, List.any_eq_true] at h
    obtain ⟨rings, hrmem, hrcond⟩ := h
    cases rings with
    | nil => cases hrcond
    | cons outer holes =>
      have hir : pointInRing p outer = true := (Bool.and_eq_true_iff.mp hrcond).1
      refine ⟨outer, ?_, hir⟩
      intro c hc
      refine List.mem_flatten.mpr ⟨(outer :: holes).flatten, ?_,
        List.mem_flatten.mpr ⟨outer, List.mem_cons_self _ _, hc⟩⟩
      exact List.mem_map_of_mem _ hrmem
  | point c => cases h
  | multiPoint cs => cases h
  | lineString cs => cases h
  | multiLineString ls => cases h
  | other => cases h

/-- **C6.** The bounding-box pre-filter is only a rejection filter and
never changes the classification result: for a box derived from the
feature's own geometry, a point outside the box always fails the exact
containment test, so the gated test used by `findFloodZone` /
`findParcelAtPoint` coincides with `pointInPolygon` alone. -/
theorem claim_C6 :
    (∀ (p : Pt) (g : Geometry) (bb : BBox), geometryBounds g = some bb →
        pointWithinBounds p bb = false → pointInPolygonGeom p g = false) ∧
    (∀ (p : Pt) (g : Geometry),
        zoneContains p ⟨g, geometryBounds g⟩ = pointInPolygonGeom p g) ∧
    (∀ (p : Pt) (g : Geometry) (c : Option Pt),
        parcelContains p ⟨g, geometryBounds g, c⟩ = pointInPolygonGeom p g) := by
  have hrej : ∀ (p : Pt) (g : Geometry) (bb : BBox), geometryBounds g = some bb →
      pointWithinBounds p bb = false → pointInPolygonGeom p g = false := by
    intro p g bb hbb hout
    cases hres : pointInPolygonGeom p g with
    | false => rfl
    | true =>
      obtain ⟨ring, hsub, hir⟩ := pointInPolygonGeom_true_ring p g hres
      have hin := pointInRing_true_inBox p ring bb
        (fun c hc => geometryBounds_inBox g bb hbb c (hsub c hc)) hir
      rw [hin] at hout
      cases hout
  refine ⟨hrej, ?_, ?_⟩
  · intro p g
    rw [zoneContains]
    cases hbb : geometryBounds g with
    | none => rfl
    | some bb =>
      simp only []
      cases hw : pointWithinBounds p bb with
      | false =>
        simp only [Bool.not_false, if_true]
        exact (hrej p g bb hbb hw).symm
      | true => simp
  · intro p g c
    rw [parcelContains]
    cases hbb : geometryBounds g with
    | none => rfl
    | some bb =>
      simp only []
      cases hw : pointWithinBounds p bb with
      | false =>
        simp only [Bool.not_false, if_true]
        exact (hrej p g bb hbb hw).symm
      | true => simp

/-- Witness for C6: the triangle `(0,0) (2,0) (1,2)` has bounds
`[0,0,2,2]`; the point `(5,5)` is outside the box, and both the exact test
and the gated test reject it. -/
theorem claim_C6_witness :
    pointInPolygonGeom (5, 5) (.polygon [[(0, 0), (2, 0), (1, 2)]]) = false ∧
    zoneContains (5, 5)
      ⟨.polygon [[(0, 0), (2, 0), (1, 2)]],
        geometryBounds (.polygon [[(0, 0), (2, 0), (1, 2)]])⟩ =
      pointInPolygonGeom (5, 5) (.polygon [[(0, 0), (2, 0), (1, 2)]]) := by
  constructor
  · refine claim_C6.1 (5, 5) (.polygon [[(0, 0), (2, 0), (1, 2)]]) ⟨0, 0, 2, 2⟩ ?_ ?_
    · norm_num [geometryBounds, coordsOf, boundsOfCoords, List.foldl, bboxUpd,
        min_def, max_def]
    · norm_num [pointWithinBounds]
  · exact claim_C6.2.1 (5, 5) (.polygon [[(0, 0), (2, 0), (1, 2)]])

/-! ### C2: shape of `pointInPolygon` (outer ring / holes decomposition) -/

theorem pointInPolygon_polygon_iff (p : Pt) (outer : List Pt) (holes : List (List Pt)) :
    pointInPolygonGeom p (.polygon (outer :: holes)) = true ↔
      pointInRing p outer = true ∧ ∀ h ∈ holes, pointInRing p h = false := by
  rw [pointInPolygonGeom]
  constructor
  · intro h
    by_cases ho : pointInRing p outer
    · rw [ho] at h
      simp only [Bool.not_true, Bool.false_eq_true, if_false] at h
      refine ⟨ho, ?_⟩
      intro hr hmem
      by_cases hh : pointInRing p hr
      · exfalso
        rw [if_pos (List.any_eq_true.mpr ⟨hr, hmem, hh⟩)] at h
        cases h
      · exact Bool.eq_false_iff.mpr hh
    · rw [Bool.eq_false_iff.mpr ho] at h
      simp at h
  · rintro ⟨ho, hh⟩
    rw [ho]
    simp only [Bool.not_true, Bool.false_eq_true, if_false]
    rw [if_neg]
    intro habs
    obtain ⟨hr, hmem, hin⟩ := List.any_eq_true.mp habs
    rw [hh hr hmem] at hin
    cases hin

theorem pointInPolygon_multiPolygon_iff (p : Pt) (polys : List (List (List Pt))) :
    pointInPolygonGeom p (.multiPolygon polys) = true ↔
      ∃ rings ∈ polys, ∃ outer holes, rings = outer :: holes ∧
        pointInRing p outer = true ∧ ∀ h ∈ holes, pointInRing p h = false := by
  rw [pointInPolygonGeom, List.any_eq_true]
  constructor
  · rintro ⟨rings, hmem, hcond⟩
    cases rings with
    | nil => cases hcond
    | cons outer holes =>
      obtain ⟨ho, hh⟩ := Bool.and_eq_true_iff.mp hcond
      refine ⟨outer :: holes, hmem, outer, holes, rfl, ho, ?_⟩
      intro hr hrmem
      by_cases hin : pointInRing p hr
      · exfalso
        rw [Bool.not_eq_true', List.any_eq_false] at hh
        exact hh hr hrmem hin
      · exact Bool.eq_false_iff.mpr hin
  · rintro ⟨rings, hmem, outer, holes, rfl, ho, hh⟩
    refine ⟨outer :: holes, hmem, ?_⟩
    show (pointInRing p outer && !(holes.any fun h => pointInRing p h)) = true
    rw [ho]
    simp only [Bool.true_and, Bool.not_eq_true']
    rw [List.any_eq_false]
    intro hr hrmem
    rw [hh hr hrmem]
    simp

/-! ### C2: convex-polygon geometry -/

theorem cross_sub_expand (P Q R S : Pt) :
    cross (P - Q) (R - S) =
      (P.1 - Q.1) * (R.2 - S.2) - (P.2 - Q.2) * (R.1 - S.1) := by
  rw [cross, Prod.fst_sub, Prod.snd_sub, Prod.fst_sub, Prod.snd_sub]

/-- Scalar core of the crossing-diagonals argument: four points in strictly
convex counter-clockwise position cannot alternate below/above a
horizontal line. -/
theorem quad_core (a1 a2 b1 b2 c1 c2 d1 d2 y : ℚ)
    (hABC : 0 < (b1 - a1) * (c2 - a2) - (b2 - a2) * (c1 - a1))
    (hABD : 0 < (b1 - a1) * (d2 - a2) - (b2 - a2) * (d1 - a1))
    (hACD : 0 < (c1 - a1) * (d2 - a2) - (c2 - a2) * (d1 - a1))
    (hBCD : 0 < (c1 - b1) * (d2 - b2) - (c2 - b2) * (d1 - b1))
    (hA : a2 ≤ y) (hB : y < b2) (hC : c2 ≤ y) (hD : y < d2) : False := by
  obtain ⟨gB, hgBdef⟩ : ∃ x, x = (c1 - a1) * (b2 - a2) - (c2 - a2) * (b1 - a1) :=
    ⟨_, rfl⟩
  obtain ⟨gD, hgDdef⟩ : ∃ x, x = (c1 - a1) * (d2 - a2) - (c2 - a2) * (d1 - a1) :=
    ⟨_, rfl⟩
  have hgB : gB < 0 := by rw [hgBdef]; nlinarith [hABC]
  have hgD : 0 < gD := by rw [hgDdef]; exact hACD
  obtain ⟨u, hueq, hu0, hu1⟩ : ∃ u, u * (gD - gB) = -gB ∧ 0 < u ∧ u < 1 := by
    refine ⟨-gB / (gD - gB), div_mul_cancel₀ _ (by linarith),
      div_pos (by linarith) (by linarith), ?_⟩
    rw [div_lt_one (by linarith)]
    linarith
  obtain ⟨Q1, hQ1⟩ : ∃ x, x = b1 + u * (d1 - b1) := ⟨_, rfl⟩
  obtain ⟨Q2, hQ2⟩ : ∃ x, x = b2 + u * (d2 - b2) := ⟨_, rfl⟩
  have hQy : y < Q2 := by
    rw [hQ2]
    nlinarith [mul_pos hu0 (sub_pos.mpr hD), mul_pos (sub_pos.mpr hu1) (sub_pos.mpr hB)]
  have hgQ : (c1 - a1) * (Q2 - a2) - (c2 - a2) * (Q1 - a1) = 0 := by
    have he : (c1 - a1) * (Q2 - a2) - (c2 - a2) * (Q1 - a1) = gB + u * (gD - gB) := by
      rw [hQ1, hQ2, hgBdef, hgDdef]
      ring
    rw [he, hueq]
    ring
  obtain ⟨t, hq1, hq2⟩ : ∃ t, Q1 = a1 + t * (c1 - a1) ∧ Q2 = a2 + t * (c2 - a2) := by
    by_cases hca : c1 - a1 = 0
    · have hca2 : c2 - a2 ≠ 0 := by
        intro h0
        rw [hca, h0] at hABC
        nlinarith
      refine ⟨(Q2 - a2) / (c2 - a2), ?_, ?_⟩
      · have hz : (c2 - a2) * (Q1 - a1) = 0 := by
          rw [hca] at hgQ
          linarith
        rcases mul_eq_zero.mp hz with h' | h'
        · exact absurd h' hca2
        · rw [hca, mul_zero, add_zero]
          linarith
      · field_simp
    · refine ⟨(Q1 - a1) / (c1 - a1), by field_simp, ?_⟩
      field_simp
      linear_combination hgQ
  obtain ⟨fA, hfAdef⟩ : ∃ x, x = (d1 - b1) * (a2 - b2) - (d2 - b2) * (a1 - b1) :=
    ⟨_, rfl⟩
  obtain ⟨fC, hfCdef⟩ : ∃ x, x = (d1 - b1) * (c2 - b2) - (d2 - b2) * (c1 - b1) :=
    ⟨_, rfl⟩
  have hfA : 0 < fA := by rw [hfAdef]; nlinarith [hABD]
  have hfC : fC < 0 := by rw [hfCdef]; nlinarith [hBCD]
  have hfQ : (d1 - b1) * (Q2 - b2) - (d2 - b2) * (Q1 - b1) = 0 := by
    rw [hQ1, hQ2]
    ring
  have haff : (d1 - b1) * (Q2 - b2) - (d2 - b2) * (Q1 - b1) = fA + t * (fC - fA) := by
    rw [hq1, hq2, hfAdef, hfCdef]
    ring
  have heq : t * (fA - fC) = fA := by
    rw [haff] at hfQ
    linarith
  have hpos : 0 < fA - fC := by linarith
  have htval : t = fA / (fA - fC) := by
    rw [eq_div_iff (ne_of_gt hpos)]
    exact heq
  have ht0 : 0 < t := by
    rw [htval]
    exact div_pos hfA hpos
  have ht1 : t < 1 := by
    rw [htval, div_lt_one hpos]
    linarith
  have hQy2 : Q2 ≤ y := by
    have key : y - (a2 + t * (c2 - a2)) = (1 - t) * (y - a2) + t * (y - c2) := by
      ring
    have hn1 : 0 ≤ (1 - t) * (y - a2) := mul_nonneg (by linarith) (by linarith)
    have hn2 : 0 ≤ t * (y - c2) := mul_nonneg (by linarith) (by linarith)
    rw [hq2]
    linarith
  linarith

/-- Point form of `quad_core`. -/
theorem quad_no_alternation (A B C D : Pt) (y : ℚ)
    (hABC : ccw A B C) (hABD : ccw A B D) (hACD : ccw A C D) (hBCD : ccw B C D)
    (hA : A.2 ≤ y) (hB : y < B.2) (hC : C.2 ≤ y) (hD : y < D.2) : False := by
  rw [ccw, cross_sub_expand] at hABC hABD hACD hBCD
  exact quad_core A.1 A.2 B.1 B.2 C.1 C.2 D.1 D.2 y hABC hABD hACD hBCD hA hB hC hD

/-! ### Index arithmetic on the cyclic vertex set -/

theorem zmod_natCast_val {n : ℕ} (hn : 1 ≤ n) (k : ZMod n) :
    ((k.val : ℕ) : ZMod n) = k := by
  haveI : NeZero n := ⟨by omega⟩
  rw [ZMod.natCast_val, ZMod.cast_id]

theorem zmod_val_inj {n : ℕ} (hn : 1 ≤ n) {a b : ZMod n} (h : a.val = b.val) :
    a = b := by
  haveI : NeZero n := ⟨by omega⟩
  exact ZMod.val_injective n h

theorem val_sub_one {n : ℕ} (hn : 1 ≤ n) (k : ZMod n) :
    (k - 1).val = if k.val = 0 then n - 1 else k.val - 1 := by
  haveI : NeZero n := ⟨by omega⟩
  have hlt : k.val < n := ZMod.val_lt k
  have hsub : k - 1 = ((k.val + (n - 1) : ℕ) : ZMod n) := by
    push_cast
    rw [Nat.cast_sub hn, ZMod.natCast_self, zmod_natCast_val hn k]
    ring
  rw [hsub, ZMod.val_natCast]
  by_cases h0 : k.val = 0
  · rw [if_pos h0, h0]
    have h' : 0 + (n - 1) < n := by omega
    rw [Nat.mod_eq_of_lt h']
    omega
  · rw [if_neg h0]
    have he : k.val + (n - 1) = (k.val - 1) + n := by omega
    have h' : k.val - 1 < n := by omega
    rw [he, Nat.add_mod_right, Nat.mod_eq_of_lt h']

theorem cyc_rot {n : ℕ} {i j k : ZMod n} (h : cyc i j k) : cyc j k i := by
  rw [cyc] at *
  omega

/-- The two endpoints of an edge, with any third vertex, are in cyclic
order. -/
theorem cyc_edge_any {n : ℕ} (hn : 3 ≤ n) (k w : ZMod n)
    (h1 : w ≠ k - 1) (h2 : w ≠ k) : cyc (k - 1) k w := by
  haveI : NeZero n := ⟨by omega⟩
  have hvk : k.val < n := ZMod.val_lt k
  have hvw : w.val < n := ZMod.val_lt w
  have hv1 : w.val ≠ (k - 1).val := fun h => h1 (zmod_val_inj (by omega) h)
  have hv2 : w.val ≠ k.val := fun h => h2 (zmod_val_inj (by omega) h)
  have hs := val_sub_one (by omega : 1 ≤ n) k
  rw [cyc]
  by_cases h0 : k.val = 0
  · rw [if_pos h0] at hs
    omega
  · rw [if_neg h0] at hs
    omega

/-- Two disjoint "dominoes" `(k-1, k)` and `(l-1, l)` on the cycle are in
the cyclic order `k-1, k, l-1, l`. -/
theorem cyc_dominoes {n : ℕ} (hn : 3 ≤ n) (k l : ZMod n) (hkl : k ≠ l)
    (h1 : l ≠ k - 1) (h2 : k ≠ l - 1) :
    cyc (k - 1) k (l - 1) ∧ cyc (k - 1) k l ∧ cyc (k - 1) (l - 1) l ∧
      cyc k (l - 1) l := by
  haveI : NeZero n := ⟨by omega⟩
  have hvk : k.val < n := ZMod.val_lt k
  have hvl : l.val < n := ZMod.val_lt l
  have hva : k.val ≠ l.val := fun h => hkl (zmod_val_inj (by omega) h)
  have hvb : l.val ≠ (k - 1).val := fun h => h1 (zmod_val_inj (by omega) h)
  have hvc : k.val ≠ (l - 1).val := fun h => h2 (zmod_val_inj (by omega) h)
  have hvd : (k - 1).val ≠ (l - 1).val := by
    intro h
    have : k - 1 = l - 1 := zmod_val_inj (by omega) h
    exact hkl (by linear_combination this)
  have hsk := val_sub_one (by omega : 1 ≤ n) k
  have hsl := val_sub_one (by omega : 1 ≤ n) l
  rw [cyc, cyc, cyc, cyc]
  by_cases h0k : k.val = 0 <;> by_cases h0l : l.val = 0
  · omega
  · rw [if_pos h0k] at hsk
    rw [if_neg h0l] at hsl
    omega
  · rw [if_neg h0k] at hsk
    rw [if_pos h0l] at hsl
    omega
  · rw [if_neg h0k] at hsk
    rw [if_neg h0l] at hsl
    omega

theorem cross_sub_shift (X Y Z : Pt) :
    cross (X - Y) (Z - Y) = cross (X - Y) (Z - X) := by
  rw [cross_sub_expand, cross_sub_expand]
  ring

/-- No point can be strictly left of both edges at a vertex that is
(weakly) highest, while lying weakly above that vertex. -/
theorem wedge_contra (u1 u2 vv1 vv2 w1 w2 : ℚ)
    (huv : 0 < u1 * vv2 - u2 * vv1) (huw : 0 < u1 * w2 - u2 * w1)
    (hvw : 0 < vv1 * w2 - vv2 * w1)
    (hu2 : 0 ≤ u2) (hv2 : vv2 ≤ 0) (hw2 : 0 ≤ w2) : False := by
  have t1 : 0 ≤ (u1 * vv2 - u2 * vv1) * w2 := mul_nonneg huv.le hw2
  have t2 : 0 ≤ (vv1 * w2 - vv2 * w1) * u2 := mul_nonneg hvw.le hu2
  have t3 : 0 ≤ (u1 * w2 - u2 * w1) * (-vv2) := mul_nonneg huw.le (by linarith)
  have hsum : (u1 * vv2 - u2 * vv1) * w2 + (vv1 * w2 - vv2 * w1) * u2 +
      (u1 * w2 - u2 * w1) * (-vv2) = 0 := by ring
  have z1 : (u1 * vv2 - u2 * vv1) * w2 = 0 := by linarith
  have z2 : (vv1 * w2 - vv2 * w1) * u2 = 0 := by linarith
  have z3 : (u1 * w2 - u2 * w1) * (-vv2) = 0 := by linarith
  have hw2z : w2 = 0 := by
    rcases mul_eq_zero.mp z1 with h' | h'
    · exact absurd h' (ne_of_gt huv)
    · exact h'
  have hu2z : u2 = 0 := by
    rcases mul_eq_zero.mp z2 with h' | h'
    · exact absurd h' (ne_of_gt hvw)
    · exact h'
  have hv2z : vv2 = 0 := by
    rcases mul_eq_zero.mp z3 with h' | h'
    · exact absurd h' (ne_of_gt huw)
    · linarith
  rw [hu2z, hv2z] at huv
  simp at huv

/-- Mirror of `wedge_contra` for a (weakly) lowest vertex and a point
strictly below it. -/
theorem wedge_contra2 (u1 u2 vv1 vv2 w1 w2 : ℚ)
    (huv : 0 < u1 * vv2 - u2 * vv1) (huw : 0 < u1 * w2 - u2 * w1)
    (hvw : 0 < vv1 * w2 - vv2 * w1)
    (hu2 : u2 ≤ 0) (hv2 : 0 ≤ vv2) (hw2 : w2 < 0) : False := by
  have t1 : (u1 * vv2 - u2 * vv1) * w2 < 0 := mul_neg_of_pos_of_neg huv hw2
  have t2 : 0 ≤ (u1 * w2 - u2 * w1) * vv2 := mul_nonneg huw.le hv2
  have t3 : 0 ≤ (vv1 * w2 - vv2 * w1) * (-u2) := mul_nonneg hvw.le (by linarith)
  have hsum : (u1 * vv2 - u2 * vv1) * w2 =
      (u1 * w2 - u2 * w1) * vv2 + (vv1 * w2 - vv2 * w1) * (-u2) := by ring
  linarith

/-- A point strictly left of all edges lies strictly below some vertex. -/
theorem exists_vertex_above {n : ℕ} (hn : 3 ≤ n) (v : ZMod n → Pt) (p : Pt)
    (hconv : ConvexCCW n v) (hin : StrictlyLeftAll n v p) :
    ∃ i : ZMod n, p.2 < (v i).2 := by
  haveI : NeZero n := ⟨by omega⟩
  by_contra hno
  push_neg at hno
  obtain ⟨m, hm⟩ := Finite.exists_max (fun i : ZMod n => (v i).2)
  have hm1 : m + 1 ≠ m := by
    intro h
    have h1 : (1 : ZMod n) = 0 := by linear_combination h
    have hv1 : ((1 : ℕ) : ZMod n).val = 1 := by
      rw [ZMod.val_natCast]
      exact Nat.mod_eq_of_lt (by omega)
    rw [show ((1 : ℕ) : ZMod n) = (1 : ZMod n) by push_cast; ring, h1] at hv1
    simp at hv1
  have hm2 : m + 1 ≠ m - 1 := by
    intro h
    have h2 : (2 : ZMod n) = 0 := by linear_combination h
    have hv2 : ((2 : ℕ) : ZMod n).val = 2 := by
      rw [ZMod.val_natCast]
      exact Nat.mod_eq_of_lt (by omega)
    rw [show ((2 : ℕ) : ZMod n) = (2 : ZMod n) by push_cast; ring, h2] at hv2
    simp at hv2
  have hcyc : cyc (m - 1) m (m + 1) := cyc_edge_any hn m (m + 1) hm2 hm1
  have hccw : ccw (v (m - 1)) (v m) (v (m + 1)) := hconv _ _ _ hcyc
  have hu := hin m
  have hv' := hin (m + 1)
  rw [show m + 1 - 1 = m by ring] at hv'
  rw [cross_sub_shift] at hu
  have hccw' : 0 < cross (v m - v (m - 1)) (v (m + 1) - v m) := by
    rw [ccw, cross_sub_shift] at hccw
    exact hccw
  rw [cross_sub_expand] at hu hv' hccw'
  exact wedge_contra ((v m).1 - (v (m - 1)).1) ((v m).2 - (v (m - 1)).2)
    ((v (m + 1)).1 - (v m).1) ((v (m + 1)).2 - (v m).2)
    (p.1 - (v m).1) (p.2 - (v m).2)
    hccw' hu hv'
    (by linarith [hm (m - 1)]) (by linarith [hm (m + 1)]) (by linarith [hno m])

/-- A point strictly left of all edges lies weakly above some vertex. -/
theorem exists_vertex_below {n : ℕ} (hn : 3 ≤ n) (v : ZMod n → Pt) (p : Pt)
    (hconv : ConvexCCW n v) (hin : StrictlyLeftAll n v p) :
    ∃ i : ZMod n, (v i).2 ≤ p.2 := by
  haveI : NeZero n := ⟨by omega⟩
  by_contra hno
  push_neg at hno
  obtain ⟨m, hm⟩ := Finite.exists_min (fun i : ZMod n => (v i).2)
  have hm1 : m + 1 ≠ m := by
    intro h
    have h1 : (1 : ZMod n) = 0 := by linear_combination h
    have hv1 : ((1 : ℕ) : ZMod n).val = 1 := by
      rw [ZMod.val_natCast]
      exact Nat.mod_eq_of_lt (by omega)
    rw [show ((1 : ℕ) : ZMod n) = (1 : ZMod n) by push_cast; ring, h1] at hv1
    simp at hv1
  have hm2 : m + 1 ≠ m - 1 := by
    intro h
    have h2 : (2 : ZMod n) = 0 := by linear_combination h
    have hv2 : ((2 : ℕ) : ZMod n).val = 2 := by
      rw [ZMod.val_natCast]
      exact Nat.mod_eq_of_lt (by omega)
    rw [show ((2 : ℕ) : ZMod n) = (2 : ZMod n) by push_cast; ring, h2] at hv2
    simp at hv2
  have hcyc : cyc (m - 1) m (m + 1) := cyc_edge_any hn m (m + 1) hm2 hm1
  have hccw : ccw (v (m - 1)) (v m) (v (m + 1)) := hconv _ _ _ hcyc
  have hu := hin m
  have hv' := hin (m + 1)
  rw [show m + 1 - 1 = m by ring] at hv'
  rw [cross_sub_shift] at hu
  have hccw' : 0 < cross (v m - v (m - 1)) (v (m + 1) - v m) := by
    rw [ccw, cross_sub_shift] at hccw
    exact hccw
  rw [cross_sub_expand] at hu hv' hccw'
  exact wedge_contra2 ((v m).1 - (v (m - 1)).1) ((v m).2 - (v (m - 1)).2)
    ((v (m + 1)).1 - (v m).1) ((v (m + 1)).2 - (v m).2)
    (p.1 - (v m).1) (p.2 - (v m).2)
    hccw' hu hv'
    (by linarith [hm (m - 1)]) (by linarith [hm (m + 1)]) (by linarith [hno m])

/-- If the vertex heights are not all on one side of the line, some edge
crosses it upward. -/
theorem exists_up_edge {n : ℕ} (hn : 3 ≤ n) (v : ZMod n → Pt) (y : ℚ)
    (habove : ∃ i, y < (v i).2) (hbelow : ∃ j, (v j).2 ≤ y) :
    ∃ k : ZMod n, (v (k - 1)).2 ≤ y ∧ y < (v k).2 := by
  by_contra hno
  push_neg at hno
  obtain ⟨i, hi⟩ := habove
  obtain ⟨j, hj⟩ := hbelow
  have hall : ∀ m : ℕ, (v (j + (m : ZMod n))).2 ≤ y := by
    intro m
    induction m with
    | zero => simpa using hj
    | succ m ih =>
      have hstep := hno (j + (m : ZMod n) + 1)
      rw [show j + (m : ZMod n) + 1 - 1 = j + (m : ZMod n) by ring] at hstep
      have := hstep ih
      rw [show j + ((m + 1 : ℕ) : ZMod n) = j + (m : ZMod n) + 1 by push_cast; ring]
      exact this
  have hij : i = j + (((i - j).val : ℕ) : ZMod n) := by
    rw [zmod_natCast_val (by omega) (i - j)]
    ring
  rw [hij] at hi
  exact absurd (hall _) (not_le.mpr hi)

/-- At most one edge of a strictly convex ring crosses the line upward. -/
theorem up_edge_unique {n : ℕ} (hn : 3 ≤ n) (v : ZMod n → Pt) (y : ℚ)
    (hconv : ConvexCCW n v) {k l : ZMod n}
    (hk : (v (k - 1)).2 ≤ y ∧ y < (v k).2)
    (hl : (v (l - 1)).2 ≤ y ∧ y < (v l).2) : k = l := by
  by_contra hkl
  by_cases h1 : l = k - 1
  · rw [h1] at hl
    exact absurd hk.1 (not_le.mpr hl.2)
  · by_cases h2 : k = l - 1
    · rw [h2] at hk
      exact absurd hl.1 (not_le.mpr hk.2)
    · obtain ⟨hc1, hc2, hc3, hc4⟩ := cyc_dominoes hn k l hkl h1 h2
      exact quad_no_alternation (v (k - 1)) (v k) (v (l - 1)) (v l) y
        (hconv _ _ _ hc1) (hconv _ _ _ hc2) (hconv _ _ _ hc3) (hconv _ _ _ hc4)
        hk.1 hk.2 hl.1 hl.2

/-- At most one edge of a strictly convex ring crosses the line downward. -/
theorem down_edge_unique {n : ℕ} (hn : 3 ≤ n) (v : ZMod n → Pt) (y : ℚ)
    (hconv : ConvexCCW n v) {k l : ZMod n}
    (hk : y < (v (k - 1)).2 ∧ (v k).2 ≤ y)
    (hl : y < (v (l - 1)).2 ∧ (v l).2 ≤ y) : k = l := by
  by_contra hkl
  by_cases h1 : l = k - 1
  · rw [h1] at hl
    exact absurd hl.2 (not_le.mpr hk.1)
  · by_cases h2 : k = l - 1
    · rw [h2] at hk
      exact absurd hk.2 (not_le.mpr hl.1)
    · obtain ⟨hc1, hc2, hc3, hc4⟩ := cyc_dominoes hn k l hkl h1 h2
      exact quad_no_alternation (v k) (v (l - 1)) (v l) (v (k - 1)) y
        (hconv _ _ _ hc4) (hconv _ _ _ (cyc_rot hc1)) (hconv _ _ _ (cyc_rot hc2))
        (hconv _ _ _ (cyc_rot hc3))
        hk.2 hl.1 hl.2 hk.1

/-- The edge list of an indexed ring: position `m` carries the edge from
`v (m-1)` to `v m`, the wrap-around edge sitting at position `0`. -/
theorem ringEdges_ringOfFn (n : ℕ) (hn : 1 ≤ n) (v : ZMod n → Pt) :
    ringEdges (ringOfFn n v) =
      (List.range n).map (fun (m : ℕ) => (v ((m : ZMod n) - 1), v (m : ZMod n))) := by
  haveI : NeZero n := ⟨by omega⟩
  have hrlen : (ringOfFn n v).length = n := by
    rw [ringOfFn, List.length_map, List.length_range]
  have hne : ringOfFn n v ≠ [] := by
    intro h
    rw [h] at hrlen
    simp at hrlen
    omega
  refine List.ext_getElem ?_ ?_
  · rw [ringEdges, List.length_zip, List.length_cons, List.length_dropLast,
      List.length_map, List.length_range, hrlen]
    omega
  · intro i h1 h2
    have hi : i < n := by
      simpa using h2
    have hzip : i < ((ringOfFn n v).getLastD (0, 0) ::
        (ringOfFn n v).dropLast).length ⊓ (ringOfFn n v).length := by
      rw [List.length_cons, List.length_dropLast, hrlen]
      omega
    simp only [ringEdges]
    rw [List.getElem_zip, List.getElem_map, List.getElem_range]
    have hilen : i < (ringOfFn n v).length := by omega
    have hclen : i <
        ((ringOfFn n v).getLastD (0, 0) :: (ringOfFn n v).dropLast).length := by
      rw [List.length_cons, List.length_dropLast, hrlen]
      omega
    have hn1len : n - 1 < (ringOfFn n v).length := by
      rw [hrlen]
      omega
    have hsnd : (ringOfFn n v)[i] = v (i : ZMod n) := by
      simp only [ringOfFn, List.getElem_map, List.getElem_range]
    have hfst : ((ringOfFn n v).getLastD (0, 0) :: (ringOfFn n v).dropLast)[i] =
        v ((i : ZMod n) - 1) := by
      rw [List.getElem_cons]
      by_cases hi0 : i = 0
      · rw [dif_pos hi0]
        have hlast : (ringOfFn n v).getLastD (0, 0) =
            (ringOfFn n v)[n - 1] := by
          rw [List.getLastD_eq_getLast?, List.getLast?_eq_getLast _ hne,
            List.getLast_eq_getElem]
          simp only [Option.getD_some, hrlen]
        rw [hlast]
        simp only [ringOfFn, List.getElem_map, List.getElem_range]
        congr 1
        rw [hi0]
        push_cast [Nat.cast_sub hn, ZMod.natCast_self]
        ring
      · rw [dif_neg hi0]
        rw [List.getElem_dropLast]
        simp only [ringOfFn, List.getElem_map, List.getElem_range]
        congr 1
        have : ((i - 1 : ℕ) : ZMod n) = (i : ZMod n) - 1 := by
          push_cast [Nat.cast_sub (by omega : 1 ≤ i)]
          ring
        rw [this]
    rw [hsnd, hfst]

/-- Under "strictly left of this edge", the ray test for the edge holds
exactly when the edge crosses the line upward. -/
theorem rayIntersects_eq_up_of_left (p a b : Pt)
    (hleft : 0 < cross (b - a) (p - a)) :
    rayIntersects p a b = straddlesUp p.2 (a, b) := by
  rw [cross_sub_expand] at hleft
  by_cases ha : a.2 > p.2 <;> by_cases hb : b.2 > p.2
  · simp [rayIntersects, straddlesUp, ha, hb]
  · -- downward edge: x-condition fails
    have hden : a.2 - b.2 > 0 := by push_neg at hb; linarith
    have hne : a.2 - b.2 ≠ 0 := ne_of_gt hden
    have hX : (a.2 - b.2) * ((a.1 - b.1) * (p.2 - b.2) / (a.2 - b.2) + b.1 - p.1) =
        -((b.1 - a.1) * (p.2 - a.2) - (b.2 - a.2) * (p.1 - a.1)) := by
      field_simp
      ring
    have hxge : ¬(p.1 < (a.1 - b.1) * (p.2 - b.2) / (a.2 - b.2) + b.1) := by
      intro hx
      nlinarith
    simp [rayIntersects, straddlesUp, ha, hb, hxge]
  · -- upward edge: x-condition holds
    have hden : a.2 - b.2 < 0 := by push_neg at ha; linarith
    have hne : a.2 - b.2 ≠ 0 := ne_of_lt hden
    have hX : (a.2 - b.2) * ((a.1 - b.1) * (p.2 - b.2) / (a.2 - b.2) + b.1 - p.1) =
        -((b.1 - a.1) * (p.2 - a.2) - (b.2 - a.2) * (p.1 - a.1)) := by
      field_simp
      ring
    have hxlt : p.1 < (a.1 - b.1) * (p.2 - b.2) / (a.2 - b.2) + b.1 := by
      nlinarith
    simp [rayIntersects, straddlesUp, ha, hb, hxlt]
  · simp [rayIntersects, straddlesUp, ha, hb]

/-- `countP` of a predicate with a unique possible witness on a
duplicate-free list. -/
theorem countP_eq_ite_of_unique {l : List ℕ} (hnd : l.Nodup) {q : ℕ → Bool}
    (a : ℕ) (huniq : ∀ b ∈ l, q b = true → b = a) :
    l.countP q = if a ∈ l ∧ q a = true then 1 else 0 := by
  induction l with
  | nil => simp
  | cons x rest ih =>
    have hndr : rest.Nodup := (List.nodup_cons.mp hnd).2
    have hxnr : x ∉ rest := (List.nodup_cons.mp hnd).1
    have ih' := ih hndr (fun b hb hq => huniq b (List.mem_cons_of_mem x hb) hq)
    by_cases hqx : q x = true
    · have hxa : x = a := huniq x (List.mem_cons_self x rest) hqx
      subst hxa
      rw [List.countP_cons_of_pos _ _ hqx, ih']
      rw [if_neg (fun hc => hxnr hc.1), if_pos ⟨List.mem_cons_self x rest, hqx⟩]
    · rw [List.countP_cons_of_neg _ _ (by simp [hqx]), ih']
      by_cases hmem : a ∈ rest ∧ q a = true
      · rw [if_pos hmem, if_pos ⟨List.mem_cons_of_mem x hmem.1, hmem.2⟩]
      · rw [if_neg hmem, if_neg]
        intro hc
        rcases List.mem_cons.mp hc.1 with rfl | har
        · exact hqx hc.2
        · exact hmem ⟨har, hc.2⟩

/-- A point strictly inside a convex counter-clockwise ring passes the ray
test: exactly one edge is counted, so the parity is odd. -/
theorem pointInRing_convex_inside {n : ℕ} (hn : 3 ≤ n) (v : ZMod n → Pt)
    (p : Pt) (hconv : ConvexCCW n v) (hin : StrictlyLeftAll n v p) :
    pointInRing p (ringOfFn n v) = true := by
  haveI : NeZero n := ⟨by omega⟩
  have hn1 : 1 ≤ n := by omega
  rw [pointInRing_eq_parity, ringEdges_ringOfFn n hn1 v, List.countP_map]
  have hcong : (List.range n).countP
      ((fun e => rayIntersects p e.1 e.2) ∘
        (fun (m : ℕ) => (v ((m : ZMod n) - 1), v (m : ZMod n)))) =
      (List.range n).countP
        (fun (m : ℕ) => straddlesUp p.2 (v ((m : ZMod n) - 1), v (m : ZMod n))) := by
    refine List.countP_congr ?_
    intro m _
    simp only [Function.comp_apply]
    rw [rayIntersects_eq_up_of_left p _ _ (hin (m : ZMod n))]
  rw [hcong]
  obtain ⟨k, hk⟩ := exists_up_edge hn v p.2
    (exists_vertex_above hn v p hconv hin)
    ⟨_, (exists_vertex_below hn v p hconv hin).choose_spec⟩
  have huniq : ∀ b ∈ List.range n,
      (fun (m : ℕ) => straddlesUp p.2 (v ((m : ZMod n) - 1), v (m : ZMod n))) b
        = true → b = k.val := by
    intro b hb hq
    simp only [straddlesUp, Bool.and_eq_true, Bool.not_eq_true',
      decide_eq_false_iff_not, decide_eq_true_eq, not_lt] at hq
    have hbk : (b : ZMod n) = k :=
      up_edge_unique hn v p.2 hconv ⟨hq.1, hq.2⟩ hk
    have hbval : ((b : ZMod n)).val = b := by
      rw [ZMod.val_natCast]
      exact Nat.mod_eq_of_lt (List.mem_range.mp hb)
    rw [← hbval, hbk]
  have hmem : k.val ∈ List.range n ∧
      (fun (m : ℕ) => straddlesUp p.2 (v ((m : ZMod n) - 1), v (m : ZMod n)))
        k.val = true := by
    constructor
    · exact List.mem_range.mpr (ZMod.val_lt k)
    · simp only [straddlesUp, zmod_natCast_val hn1, Bool.and_eq_true,
        Bool.not_eq_true', decide_eq_false_iff_not, decide_eq_true_eq, not_lt]
      exact hk
  rw [countP_eq_ite_of_unique (List.nodup_range n) k.val huniq, if_pos hmem]
  rfl

/-- The ray-test cross term is an affine function of the query x at fixed
height: its sign is the comparison with the crossing abscissa. -/
theorem xCross_affine (y x' : ℚ) (a b : Pt) (hne : a.2 ≠ b.2) :
    cross (b - a) ((x', y) - a) = (b.2 - a.2) * (xCross y (a, b) - x') := by
  have h : a.2 - b.2 ≠ 0 := sub_ne_zero.mpr hne
  rw [cross_sub_expand, xCross]
  field_simp
  ring

/-- Every vertex of a convex counter-clockwise ring is weakly left of every
directed edge. -/
theorem vertex_weak_left {n : ℕ} (hn : 3 ≤ n) (v : ZMod n → Pt)
    (hconv : ConvexCCW n v) (k w : ZMod n) :
    0 ≤ cross (v k - v (k - 1)) (v w - v (k - 1)) := by
  by_cases h1 : w = k - 1
  · subst h1
    simp [cross]
  · by_cases h2 : w = k
    · subst h2
      have h : cross (v w - v (w - 1)) (v w - v (w - 1)) = 0 := by
        rw [cross_sub_expand]
        ring
      rw [h]
    · exact le_of_lt (hconv _ _ _ (cyc_edge_any hn k w h1 h2))

/-- The edge cross term is affine in the query point: a convex combination
of two points has the combined cross value. -/
theorem cross_combo (e a0 A B : Pt) (t : ℚ) :
    cross e ((A.1 + t * (B.1 - A.1), A.2 + t * (B.2 - A.2)) - a0) =
      (1 - t) * cross e (A - a0) + t * cross e (B - a0) := by
  simp only [cross, Prod.fst_sub, Prod.snd_sub]
  ring

/-- The crossing point of an upward straddling edge is a convex combination
of the edge's endpoints. -/
theorem up_edge_point_rep (a b : Pt) (y : ℚ) (h1 : a.2 ≤ y) (h2 : y < b.2) :
    ∃ t : ℚ, 0 ≤ t ∧ t ≤ 1 ∧
      (a.1 + t * (b.1 - a.1), a.2 + t * (b.2 - a.2)) = (xCross y (a, b), y) := by
  have hden : b.2 - a.2 > 0 := by linarith
  have hden' : a.2 - b.2 ≠ 0 := by intro h; linarith
  refine ⟨(y - a.2) / (b.2 - a.2), ?_, ?_, ?_⟩
  · exact div_nonneg (by linarith) hden.le
  · rw [div_le_one hden]
    linarith
  · rw [Prod.mk.injEq]
    constructor
    · rw [xCross]
      field_simp
      ring
    · field_simp

/-- The crossing point of a downward straddling edge is a convex
combination of the edge's endpoints. -/
theorem down_edge_point_rep (a b : Pt) (y : ℚ) (h1 : y < a.2) (h2 : b.2 ≤ y) :
    ∃ t : ℚ, 0 ≤ t ∧ t ≤ 1 ∧
      (a.1 + t * (b.1 - a.1), a.2 + t * (b.2 - a.2)) = (xCross y (a, b), y) := by
  have hden : b.2 - a.2 < 0 := by linarith
  have hden' : a.2 - b.2 ≠ 0 := by intro h; linarith
  have hden2 : b.2 - a.2 ≠ 0 := ne_of_lt hden
  refine ⟨(y - a.2) / (b.2 - a.2), ?_, ?_, ?_⟩
  · exact div_nonneg_iff.mpr (Or.inr ⟨by linarith, hden.le⟩)
  · rw [div_le_one_of_neg hden]
    linarith
  · rw [Prod.mk.injEq]
    constructor
    · rw [xCross]
      field_simp
      ring
    · field_simp

/-- The straddle test splits into the upward and downward cases. -/
theorem straddles_eq_or (y : ℚ) (e : Pt × Pt) :
    straddles y e = (straddlesUp y e || straddlesDown y e) := by
  rw [straddles, straddlesUp, straddlesDown]
  cases h1 : decide (e.1.2 > y) <;> cases h2 : decide (e.2.2 > y) <;> simp

/-- No edge straddles both upward and downward. -/
theorem straddlesUp_down_disjoint (y : ℚ) (e : Pt × Pt) :
    ¬(straddlesUp y e = true ∧ straddlesDown y e = true) := by
  rw [straddlesUp, straddlesDown]
  cases h1 : decide (e.1.2 > y) <;> simp

/-- Counting a disjunction of pointwise-disjoint predicates adds the
counts. -/
theorem countP_or_disjoint {α : Type} (l : List α) (p q : α → Bool)
    (hdisj : ∀ a ∈ l, ¬(p a = true ∧ q a = true)) :
    l.countP (fun a => p a || q a) = l.countP p + l.countP q := by
  induction l with
  | nil => rfl
  | cons x rest ih =>
    have ih' := ih (fun a ha => hdisj a (List.mem_cons_of_mem x ha))
    have hx := hdisj x (List.mem_cons_self x rest)
    cases hp : p x <;> cases hq : q x
    · simp [List.countP_cons, hp, hq, ih']
    · simp [List.countP_cons, hp, hq, ih']
      omega
    · simp [List.countP_cons, hp, hq, ih']
      omega
    · exact absurd ⟨hp, hq⟩ hx

/-- A convex combination of two vertices is weakly left of every edge. -/
theorem combo_weak_left {n : ℕ} (hn : 3 ≤ n) (v : ZMod n → Pt)
    (hconv : ConvexCCW n v) (i j : ZMod n) {t : ℚ} (ht0 : 0 ≤ t) (ht1 : t ≤ 1)
    (k : ZMod n) :
    0 ≤ cross (v k - v (k - 1))
      (((v i).1 + t * ((v j).1 - (v i).1),
        (v i).2 + t * ((v j).2 - (v i).2)) - v (k - 1)) := by
  rw [cross_combo]
  have h1 := vertex_weak_left hn v hconv k i
  have h2 := vertex_weak_left hn v hconv k j
  have h3 := mul_nonneg (by linarith : (0 : ℚ) ≤ 1 - t) h1
  have h4 := mul_nonneg ht0 h2
  linarith

/-- The crossing point of the upward straddling edge is weakly left of
every edge. -/
theorem up_cross_weak_left {n : ℕ} (hn : 3 ≤ n) (v : ZMod n → Pt)
    (hconv : ConvexCCW n v) (y : ℚ) {u : ZMod n}
    (hu : (v (u - 1)).2 ≤ y ∧ y < (v u).2) (k : ZMod n) :
    0 ≤ cross (v k - v (k - 1))
      ((xCross y (v (u - 1), v u), y) - v (k - 1)) := by
  obtain ⟨t, ht0, ht1, htp⟩ := up_edge_point_rep (v (u - 1)) (v u) y hu.1 hu.2
  rw [← htp]
  exact combo_weak_left hn v hconv (u - 1) u ht0 ht1 k

/-- The crossing point of the downward straddling edge is weakly left of
every edge. -/
theorem down_cross_weak_left {n : ℕ} (hn : 3 ≤ n) (v : ZMod n → Pt)
    (hconv : ConvexCCW n v) (y : ℚ) {d : ZMod n}
    (hd : y < (v (d - 1)).2 ∧ (v d).2 ≤ y) (k : ZMod n) :
    0 ≤ cross (v k - v (k - 1))
      ((xCross y (v (d - 1), v d), y) - v (k - 1)) := by
  obtain ⟨t, ht0, ht1, htp⟩ := down_edge_point_rep (v (d - 1)) (v d) y hd.1 hd.2
  rw [← htp]
  exact combo_weak_left hn v hconv (d - 1) d ht0 ht1 k

/-- On a convex counter-clockwise ring the downward crossing abscissa never
exceeds the upward one. -/
theorem xD_le_xU {n : ℕ} (hn : 3 ≤ n) (v : ZMod n → Pt) (hconv : ConvexCCW n v)
    (y : ℚ) {u d : ZMod n}
    (hu : (v (u - 1)).2 ≤ y ∧ y < (v u).2)
    (hd : y < (v (d - 1)).2 ∧ (v d).2 ≤ y) :
    xCross y (v (d - 1), v d) ≤ xCross y (v (u - 1), v u) := by
  have hPD := down_cross_weak_left hn v hconv y hd u
  have hne : (v (u - 1)).2 ≠ (v u).2 := ne_of_lt (lt_of_le_of_lt hu.1 hu.2)
  have haff := xCross_affine y (xCross y (v (d - 1), v d)) (v (u - 1)) (v u) hne
  have hpos : 0 < (v u).2 - (v (u - 1)).2 := by
    have := hu.1
    have := hu.2
    linarith
  by_contra hlt
  push_neg at hlt
  have hneg : ((v u).2 - (v (u - 1)).2) *
      (xCross y (v (u - 1), v u) - xCross y (v (d - 1), v d)) < 0 :=
    mul_neg_of_pos_of_neg hpos (by linarith)
  linarith [hPD, haff, hneg]

/-- A point between the two crossing abscissas at a straddled height is
weakly left of every edge of the convex ring. -/
theorem chord_weak_left {n : ℕ} (hn : 3 ≤ n) (v : ZMod n → Pt)
    (hconv : ConvexCCW n v) (y x' : ℚ) {u d : ZMod n}
    (hu : (v (u - 1)).2 ≤ y ∧ y < (v u).2)
    (hd : y < (v (d - 1)).2 ∧ (v d).2 ≤ y)
    (hx1 : xCross y (v (d - 1), v d) ≤ x')
    (hx2 : x' ≤ xCross y (v (u - 1), v u)) (k : ZMod n) :
    0 ≤ cross (v k - v (k - 1)) ((x', y) - v (k - 1)) := by
  have hPU := up_cross_weak_left hn v hconv y hu k
  have hPD := down_cross_weak_left hn v hconv y hd k
  by_cases hDU : xCross y (v (d - 1), v d) = xCross y (v (u - 1), v u)
  · have hx : x' = xCross y (v (d - 1), v d) :=
      le_antisymm (by rw [hDU]; exact hx2) hx1
    rw [hx]
    exact hPD
  · have hlt : xCross y (v (d - 1), v d) < xCross y (v (u - 1), v u) :=
      lt_of_le_of_ne (le_trans hx1 hx2) hDU
    have hne : xCross y (v (u - 1), v u) - xCross y (v (d - 1), v d) ≠ 0 :=
      ne_of_gt (by linarith)
    have hr0 : 0 ≤ (x' - xCross y (v (d - 1), v d)) /
        (xCross y (v (u - 1), v u) - xCross y (v (d - 1), v d)) :=
      div_nonneg (by linarith) (by linarith)
    have hr1 : (x' - xCross y (v (d - 1), v d)) /
        (xCross y (v (u - 1), v u) - xCross y (v (d - 1), v d)) ≤ 1 := by
      rw [div_le_one (by linarith)]
      linarith
    have hc := cross_combo (v k - v (k - 1)) (v (k - 1))
      (xCross y (v (d - 1), v d), y) (xCross y (v (u - 1), v u), y)
      ((x' - xCross y (v (d - 1), v d)) /
        (xCross y (v (u - 1), v u) - xCross y (v (d - 1), v d)))
    have hrep : ((xCross y (v (d - 1), v d), y).1 +
        (x' - xCross y (v (d - 1), v d)) /
          (xCross y (v (u - 1), v u) - xCross y (v (d - 1), v d)) *
          ((xCross y (v (u - 1), v u), y).1 - (xCross y (v (d - 1), v d), y).1),
        (xCross y (v (d - 1), v d), y).2 +
        (x' - xCross y (v (d - 1), v d)) /
          (xCross y (v (u - 1), v u) - xCross y (v (d - 1), v d)) *
          ((xCross y (v (u - 1), v u), y).2 - (xCross y (v (d - 1), v d), y).2)) =
        ((x' : ℚ), y) := by
      rw [Prod.mk.injEq]
      constructor
      · show xCross y (v (d - 1), v d) +
          (x' - xCross y (v (d - 1), v d)) /
            (xCross y (v (u - 1), v u) - xCross y (v (d - 1), v d)) *
            (xCross y (v (u - 1), v u) - xCross y (v (d - 1), v d)) = x'
        rw [div_mul_cancel₀ _ hne]
        ring
      · show y + (x' - xCross y (v (d - 1), v d)) /
            (xCross y (v (u - 1), v u) - xCross y (v (d - 1), v d)) * (y - y) = y
        ring
    rw [hrep] at hc
    rw [hc]
    have h1 := mul_nonneg (by linarith : (0 : ℚ) ≤ 1 -
      (x' - xCross y (v (d - 1), v d)) /
        (xCross y (v (u - 1), v u) - xCross y (v (d - 1), v d))) hPD
    have h2 := mul_nonneg hr0 hPU
    linarith

/-- The ray test for one edge splits into the upward and downward counted
cases. -/
theorem rayIntersects_split (p prev cur : Pt) :
    rayIntersects p prev cur =
      ((straddlesUp p.2 (prev, cur) &&
          decide (p.1 < xCross p.2 (prev, cur))) ||
        (straddlesDown p.2 (prev, cur) &&
          decide (p.1 < xCross p.2 (prev, cur)))) := by
  rw [rayIntersects, straddlesUp, straddlesDown, xCross]
  cases h1 : decide (prev.2 > p.2) <;> cases h2 : decide (cur.2 > p.2) <;>
    simp [h1, h2]

/-- Upward and downward crossings balance, restated over the index list of
an indexed ring. -/
theorem countP_up_eq_down_range {n : ℕ} (hn : 1 ≤ n) (v : ZMod n → Pt)
    (y : ℚ) :
    (List.range n).countP
        (fun (m : ℕ) => straddlesUp y (v ((m : ZMod n) - 1), v (m : ZMod n))) =
      (List.range n).countP
        (fun (m : ℕ) => straddlesDown y (v ((m : ZMod n) - 1), v (m : ZMod n))) := by
  have h := countP_up_eq_down y (ringOfFn n v)
  rw [ringEdges_ringOfFn n hn v, List.countP_map, List.countP_map] at h
  simpa [Function.comp] using h

/-- A point strictly outside a convex counter-clockwise ring fails the ray
test: the crossing count is zero or two, so the parity is even. -/
theorem pointInRing_convex_outside {n : ℕ} (hn : 3 ≤ n) (v : ZMod n → Pt)
    (p : Pt) (hconv : ConvexCCW n v) (hout : StrictlyRightSome n v p) :
    pointInRing p (ringOfFn n v) = false := by
  haveI : NeZero n := ⟨by omega⟩
  have hn1 : 1 ≤ n := by omega
  obtain ⟨k0, hk0⟩ := hout
  rw [pointInRing_eq_parity, ringEdges_ringOfFn n hn1 v, List.countP_map]
  have hcg : (List.range n).countP
      ((fun e => rayIntersects p e.1 e.2) ∘
        (fun (m : ℕ) => (v ((m : ZMod n) - 1), v (m : ZMod n)))) =
      (List.range n).countP (fun (m : ℕ) =>
        ((straddlesUp p.2 (v ((m : ZMod n) - 1), v (m : ZMod n)) &&
            decide (p.1 < xCross p.2 (v ((m : ZMod n) - 1), v (m : ZMod n)))) ||
          (straddlesDown p.2 (v ((m : ZMod n) - 1), v (m : ZMod n)) &&
            decide (p.1 < xCross p.2 (v ((m : ZMod n) - 1), v (m : ZMod n)))))) := by
    refine List.countP_congr ?_
    intro m _
    simp only [Function.comp_apply]
    rw [rayIntersects_split]
  rw [hcg, countP_or_disjoint (List.range n)
    (fun (m : ℕ) => straddlesUp p.2 (v ((m : ZMod n) - 1), v (m : ZMod n)) &&
      decide (p.1 < xCross p.2 (v ((m : ZMod n) - 1), v (m : ZMod n))))
    (fun (m : ℕ) => straddlesDown p.2 (v ((m : ZMod n) - 1), v (m : ZMod n)) &&
      decide (p.1 < xCross p.2 (v ((m : ZMod n) - 1), v (m : ZMod n))))
    (fun m _ hc =>
      straddlesUp_down_disjoint p.2 (v ((m : ZMod n) - 1), v (m : ZMod n))
        ⟨(Bool.and_eq_true_iff.mp hc.1).1, (Bool.and_eq_true_iff.mp hc.2).1⟩)]
  by_cases hup : ∃ u : ZMod n, (v (u - 1)).2 ≤ p.2 ∧ p.2 < (v u).2
  · obtain ⟨u, hu⟩ := hup
    have hupc : (List.range n).countP
        (fun (m : ℕ) => straddlesUp p.2 (v ((m : ZMod n) - 1), v (m : ZMod n))) = 1 := by
      have huniq : ∀ b ∈ List.range n,
          (fun (m : ℕ) => straddlesUp p.2 (v ((m : ZMod n) - 1), v (m : ZMod n))) b
            = true → b = u.val := by
        intro b hb hq
        simp only [straddlesUp, Bool.and_eq_true, Bool.not_eq_true',
          decide_eq_false_iff_not, decide_eq_true_eq, not_lt] at hq
        have hbu : (b : ZMod n) = u :=
          up_edge_unique hn v p.2 hconv ⟨hq.1, hq.2⟩ hu
        have hbval : ((b : ZMod n)).val = b := by
          rw [ZMod.val_natCast]
          exact Nat.mod_eq_of_lt (List.mem_range.mp hb)
        rw [← hbval, hbu]
      rw [countP_eq_ite_of_unique (List.nodup_range n) u.val huniq, if_pos]
      refine ⟨List.mem_range.mpr (ZMod.val_lt u), ?_⟩
      simp only [straddlesUp, zmod_natCast_val hn1, Bool.and_eq_true,
        Bool.not_eq_true', decide_eq_false_iff_not, decide_eq_true_eq, not_lt]
      exact hu
    have hdnc : (List.range n).countP
        (fun (m : ℕ) => straddlesDown p.2 (v ((m : ZMod n) - 1), v (m : ZMod n))) = 1 := by
      rw [← countP_up_eq_down_range hn1 v p.2]
      exact hupc
    obtain ⟨md, hmdmem, hmd⟩ := List.countP_pos_iff.mp (by rw [hdnc]; omega)
    have hd : p.2 < (v ((md : ZMod n) - 1)).2 ∧ (v (md : ZMod n)).2 ≤ p.2 := by
      simpa only [straddlesDown, Bool.and_eq_true, Bool.not_eq_true',
        decide_eq_false_iff_not, decide_eq_true_eq, not_lt] using hmd
    have hxDU : xCross p.2 (v ((md : ZMod n) - 1), v (md : ZMod n)) ≤
        xCross p.2 (v (u - 1), v u) := xD_le_xU hn v hconv p.2 hu hd
    by_cases hpx : p.1 < xCross p.2 (v ((md : ZMod n) - 1), v (md : ZMod n))
    · -- both the up edge and the down edge are counted: two crossings
      have hqU : (List.range n).countP (fun (m : ℕ) =>
          straddlesUp p.2 (v ((m : ZMod n) - 1), v (m : ZMod n)) &&
            decide (p.1 < xCross p.2 (v ((m : ZMod n) - 1), v (m : ZMod n)))) = 1 := by
        have huniq : ∀ b ∈ List.range n, (fun (m : ℕ) =>
            straddlesUp p.2 (v ((m : ZMod n) - 1), v (m : ZMod n)) &&
              decide (p.1 < xCross p.2 (v ((m : ZMod n) - 1), v (m : ZMod n)))) b
              = true → b = u.val := by
          intro b hb hq
          simp only [Bool.and_eq_true] at hq
          simp only [straddlesUp, Bool.and_eq_true, Bool.not_eq_true',
            decide_eq_false_iff_not, decide_eq_true_eq, not_lt] at hq
          have hbu : (b : ZMod n) = u :=
            up_edge_unique hn v p.2 hconv ⟨hq.1.1, hq.1.2⟩ hu
          have hbval : ((b : ZMod n)).val = b := by
            rw [ZMod.val_natCast]
            exact Nat.mod_eq_of_lt (List.mem_range.mp hb)
          rw [← hbval, hbu]
        rw [countP_eq_ite_of_unique (List.nodup_range n) u.val huniq, if_pos]
        refine ⟨List.mem_range.mpr (ZMod.val_lt u), ?_⟩
        simp only [straddlesUp, zmod_natCast_val hn1, Bool.and_eq_true,
          Bool.not_eq_true', decide_eq_false_iff_not, decide_eq_true_eq, not_lt]
        exact ⟨hu, lt_of_lt_of_le hpx hxDU⟩
      have hqD : (List.range n).countP (fun (m : ℕ) =>
          straddlesDown p.2 (v ((m : ZMod n) - 1), v (m : ZMod n)) &&
            decide (p.1 < xCross p.2 (v ((m : ZMod n) - 1), v (m : ZMod n)))) = 1 := by
        have huniq : ∀ b ∈ List.range n, (fun (m : ℕ) =>
            straddlesDown p.2 (v ((m : ZMod n) - 1), v (m : ZMod n)) &&
              decide (p.1 < xCross p.2 (v ((m : ZMod n) - 1), v (m : ZMod n)))) b
              = true → b = ((md : ZMod n)).val := by
          intro b hb hq
          simp only [Bool.and_eq_true] at hq
          simp only [straddlesDown, Bool.and_eq_true, Bool.not_eq_true',
            decide_eq_false_iff_not, decide_eq_true_eq, not_lt] at hq
          have hbd : (b : ZMod n) = (md : ZMod n) :=
            down_edge_unique hn v p.2 hconv ⟨hq.1.1, hq.1.2⟩ hd
          have hbval : ((b : ZMod n)).val = b := by
            rw [ZMod.val_natCast]
            exact Nat.mod_eq_of_lt (List.mem_range.mp hb)
          rw [← hbval, hbd]
        rw [countP_eq_ite_of_unique (List.nodup_range n) ((md : ZMod n)).val huniq,
          if_pos]
        refine ⟨List.mem_range.mpr (ZMod.val_lt _), ?_⟩
        simp only [straddlesDown, zmod_natCast_val hn1, Bool.and_eq_true,
          Bool.not_eq_true', decide_eq_false_iff_not, decide_eq_true_eq, not_lt]
        exact ⟨hd, hpx⟩
      rw [hqU, hqD]
      rfl
    · -- neither straddling edge is counted: zero crossings
      push_neg at hpx
      have hxU : ¬(p.1 < xCross p.2 (v (u - 1), v u)) := by
        intro hlt
        have hall := chord_weak_left hn v hconv p.2 p.1 hu hd hpx (le_of_lt hlt) k0
        rw [Prod.mk.eta] at hall
        exact absurd hk0 (not_lt.mpr hall)
      have hqU : (List.range n).countP (fun (m : ℕ) =>
          straddlesUp p.2 (v ((m : ZMod n) - 1), v (m : ZMod n)) &&
            decide (p.1 < xCross p.2 (v ((m : ZMod n) - 1), v (m : ZMod n)))) = 0 := by
        rw [List.countP_eq_zero]
        intro m hm hq
        simp only [Bool.and_eq_true] at hq
        have hup' : (v ((m : ZMod n) - 1)).2 ≤ p.2 ∧ p.2 < (v (m : ZMod n)).2 := by
          simpa only [straddlesUp, Bool.and_eq_true, Bool.not_eq_true',
            decide_eq_false_iff_not, decide_eq_true_eq, not_lt] using hq.1
        have hmu : (m : ZMod n) = u := up_edge_unique hn v p.2 hconv hup' hu
        rw [hmu] at hq
        exact hxU (of_decide_eq_true hq.2)
      have hqD : (List.range n).countP (fun (m : ℕ) =>
          straddlesDown p.2 (v ((m : ZMod n) - 1), v (m : ZMod n)) &&
            decide (p.1 < xCross p.2 (v ((m : ZMod n) - 1), v (m : ZMod n)))) = 0 := by
        rw [List.countP_eq_zero]
        intro m hm hq
        simp only [Bool.and_eq_true] at hq
        have hdn' : p.2 < (v ((m : ZMod n) - 1)).2 ∧ (v (m : ZMod n)).2 ≤ p.2 := by
          simpa only [straddlesDown, Bool.and_eq_true, Bool.not_eq_true',
            decide_eq_false_iff_not, decide_eq_true_eq, not_lt] using hq.1
        have hmd' : (m : ZMod n) = (md : ZMod n) :=
          down_edge_unique hn v p.2 hconv hdn' hd
        rw [hmd'] at hq
        exact absurd (of_decide_eq_true hq.2) (not_lt.mpr hpx)
      rw [hqU, hqD]
      rfl
  · -- no edge straddles the height at all: zero crossings
    push_neg at hup
    have hupz : (List.range n).countP
        (fun (m : ℕ) => straddlesUp p.2 (v ((m : ZMod n) - 1), v (m : ZMod n))) = 0 := by
      rw [List.countP_eq_zero]
      intro m hm hq
      have hup' : (v ((m : ZMod n) - 1)).2 ≤ p.2 ∧ p.2 < (v (m : ZMod n)).2 := by
        simpa only [straddlesUp, Bool.and_eq_true, Bool.not_eq_true',
          decide_eq_false_iff_not, decide_eq_true_eq, not_lt] using hq
      exact absurd hup'.2 (not_lt.mpr (hup (m : ZMod n) hup'.1))
    have hdnz : (List.range n).countP
        (fun (m : ℕ) => straddlesDown p.2 (v ((m : ZMod n) - 1), v (m : ZMod n))) = 0 := by
      rw [← countP_up_eq_down_range hn1 v p.2]
      exact hupz
    have hqU : (List.range n).countP (fun (m : ℕ) =>
        straddlesUp p.2 (v ((m : ZMod n) - 1), v (m : ZMod n)) &&
          decide (p.1 < xCross p.2 (v ((m : ZMod n) - 1), v (m : ZMod n)))) = 0 := by
      rw [List.countP_eq_zero]
      intro m hm hq
      simp only [Bool.and_eq_true] at hq
      exact absurd hq.1 (List.countP_eq_zero.mp hupz m hm)
    have hqD : (List.range n).countP (fun (m : ℕ) =>
        straddlesDown p.2 (v ((m : ZMod n) - 1), v (m : ZMod n)) &&
          decide (p.1 < xCross p.2 (v ((m : ZMod n) - 1), v (m : ZMod n)))) = 0 := by
      rw [List.countP_eq_zero]
      intro m hm hq
      simp only [Bool.and_eq_true] at hq
      exact absurd hq.1 (List.countP_eq_zero.mp hdnz m hm)
    rw [hqU, hqD]
    rfl

/-- C2: the containment test on a Polygon is true iff the ray-casting
parity test puts the point inside the outer ring (index 0) and inside no
hole ring (indices ≥ 1); on a MultiPolygon it is true iff some constituent
polygon's outer ring contains the point and none of that polygon's own
holes does; consequently a point inside a hole ring is rejected; and for a
convex (counter-clockwise, at least 3 vertices) polygon every point
strictly inside every edge passes and every point strictly outside some
edge fails. -/
theorem claim_C2 :
    (∀ (p : Pt) (outer : List Pt) (holes : List (List Pt)),
      pointInPolygonGeom p (.polygon (outer :: holes)) = true ↔
        pointInRing p outer = true ∧ ∀ h ∈ holes, pointInRing p h = false) ∧
    (∀ (p : Pt) (polys : List (List (List Pt))),
      pointInPolygonGeom p (.multiPolygon polys) = true ↔
        ∃ rings ∈ polys, ∃ outer holes, rings = outer :: holes ∧
          pointInRing p outer = true ∧ ∀ h ∈ holes, pointInRing p h = false) ∧
    (∀ (p : Pt) (outer : List Pt) (holes : List (List Pt)) (h0 : List Pt),
      h0 ∈ holes → pointInRing p h0 = true →
        pointInPolygonGeom p (.polygon (outer :: holes)) = false) ∧
    (∀ (n : ℕ), 3 ≤ n → ∀ (v : ZMod n → Pt) (p : Pt), ConvexCCW n v →
      (StrictlyLeftAll n v p →
        pointInPolygonGeom p (.polygon [ringOfFn n v]) = true) ∧
      (StrictlyRightSome n v p →
        pointInPolygonGeom p (.polygon [ringOfFn n v]) = false)) := by
  refine ⟨pointInPolygon_polygon_iff, pointInPolygon_multiPolygon_iff, ?_, ?_⟩
  · intro p outer holes h0 hmem hin
    cases hpoly : pointInPolygonGeom p (.polygon (outer :: holes)) with
    | false => rfl
    | true =>
      obtain ⟨-, hall⟩ := (pointInPolygon_polygon_iff p outer holes).mp hpoly
      rw [hall h0 hmem] at hin
      exact absurd hin Bool.false_ne_true
  · intro n hn3 v p hconv
    constructor
    · intro hleft
      exact (pointInPolygon_polygon_iff p (ringOfFn n v) []).mpr
        ⟨pointInRing_convex_inside hn3 v p hconv hleft, by simp⟩
    · intro hright
      cases hpoly : pointInPolygonGeom p (.polygon [ringOfFn n v]) with
      | false => rfl
      | true =>
        obtain ⟨hor, -⟩ := (pointInPolygon_polygon_iff p (ringOfFn n v) []).mp hpoly
        rw [pointInRing_convex_outside hn3 v p hconv hright] at hor
        exact absurd hor Bool.false_ne_true

theorem claim_C2_witness :
    pointInPolygonGeom (1/2, 1/2) (.polygon [ringOfFn 4 sqVerts]) = true ∧
    pointInPolygonGeom (2, 1/2) (.polygon [ringOfFn 4 sqVerts]) = false ∧
    pointInPolygonGeom (0, 0)
      (.polygon [[(-2, -2), (2, -2), (0, 3)], [(-1, -1), (1, -1), (0, 2)]]) =
      false ∧
    pointInPolygonGeom (0, 0)
      (.multiPolygon [[[(-1, -1), (1, -1), (0, 2)]]]) = true := by
  have hall4 : ∀ m : ZMod 4, m = 0 ∨ m = 1 ∨ m = 2 ∨ m = 3 := by decide
  have hsub0 : ((0 : ZMod 4) - 1) = 3 := by decide
  have hsub1 : ((1 : ZMod 4) - 1) = 0 := by decide
  have hsub2 : ((2 : ZMod 4) - 1) = 1 := by decide
  have hsub3 : ((3 : ZMod 4) - 1) = 2 := by decide
  have hv0 : sqVerts 0 = (0, 0) := by
    rw [sqVerts]
    rw [if_pos rfl]
  have hv1 : sqVerts 1 = (1, 0) := by
    rw [sqVerts]
    rw [if_neg (by decide), if_pos rfl]
  have hv2 : sqVerts 2 = (1, 1) := by
    rw [sqVerts]
    rw [if_neg (by decide), if_neg (by decide), if_pos rfl]
  have hv3 : sqVerts 3 = (0, 1) := by
    rw [sqVerts]
    rw [if_neg (by decide), if_neg (by decide), if_neg (by decide)]
  have hconv : ConvexCCW 4 sqVerts := by
    intro i j k hc
    rcases hall4 i with rfl | rfl | rfl | rfl <;>
      rcases hall4 j with rfl | rfl | rfl | rfl <;>
        rcases hall4 k with rfl | rfl | rfl | rfl <;>
          first
            | exact absurd hc (by rw [cyc]; decide)
            | (simp only [ccw, hv0, hv1, hv2, hv3, cross_sub_expand]; norm_num)
  refine ⟨?_, ?_, ?_, ?_⟩
  · refine (claim_C2.2.2.2 4 (by norm_num) sqVerts (1/2, 1/2) hconv).1 ?_
    intro k
    rcases hall4 k with rfl | rfl | rfl | rfl <;>
      (simp only [hsub0, hsub1, hsub2, hsub3, hv0, hv1, hv2, hv3,
        cross_sub_expand]; norm_num)
  · refine (claim_C2.2.2.2 4 (by norm_num) sqVerts (2, 1/2) hconv).2 ?_
    refine ⟨2, ?_⟩
    simp only [hsub2, hv1, hv2, cross_sub_expand]
    norm_num
  · refine claim_C2.2.2.1 (0, 0) [(-2, -2), (2, -2), (0, 3)]
      [[(-1, -1), (1, -1), (0, 2)]] [(-1, -1), (1, -1), (0, 2)] (by simp) ?_
    norm_num [pointInRing, ringEdges, rayIntersects, List.foldl]
  · refine (claim_C2.2.1 (0, 0) [[[(-1, -1), (1, -1), (0, 2)]]]).mpr
      ⟨[[(-1, -1), (1, -1), (0, 2)]], by simp,
        [(-1, -1), (1, -1), (0, 2)], [], rfl, ?_, by simp⟩
    norm_num [pointInRing, ringEdges, rayIntersects, List.foldl]

end Theorems

end FloodApp
